import Mathlib

/-!
Verification of the structural code-graph subsystem of codex-veritas.

The development shallowly embeds the Python sources:
  * `src/codex_veritas/analysis/ast_parser.py` (two-pass symbol resolution),
  * `src/codex/graph/core.py` (the `CodeGraph` data model over networkx),
  * `src/codex/ingestion/parser.py` (per-file node/edge extraction),
  * `src/codex/report/ranking.py` (centrality ranking).

Python strings are embedded as `List Char`, Python dicts as ordered
association lists with unique keys (insertion order preserved, as in
CPython 3.7+), and exceptions as `Except`.
-/

set_option autoImplicit false

namespace CodexVeritas

/-- Characters of a Python string. -/
abbrev Str := List Char

/-- Convert a Lean string literal to the `List Char` embedding. -/
def s2l (s : String) : Str := s.data

/-- Python attribute values that occur in the graph pipeline:
strings, ints (line numbers), and rationals standing for floats
(rank scores). -/
inductive PyValue where
  | str (s : Str)
  | int (n : Int)
  | rat (q : Rat)
  deriving DecidableEq

instance : Inhabited PyValue := ⟨.int 0⟩

deriving instance DecidableEq for Except

/-- A Python dict with string keys, as an ordered association list.
Insertion order is significant, mirroring CPython dict iteration order. -/
abbrev Dict := List (Str × PyValue)

/-- `k in d` for a Python dict. -/
def containsK (d : Dict) (k : Str) : Bool :=
  d.any (fun kv => decide (kv.1 = k))

/-- `d.get(k)` / `d[k]` lookup for a Python dict. -/
def lookupK (d : Dict) (k : Str) : Option PyValue :=
  (d.find? (fun kv => decide (kv.1 = k))).map Prod.snd

/-- Removal of a key from a Python dict (keys are unique, so filtering
all occurrences agrees with deleting the single entry). -/
def eraseK (d : Dict) (k : Str) : Dict :=
  d.filter (fun kv => decide (kv.1 ≠ k))

/-- `d[k] = v` for a Python dict: replace in place when present,
append otherwise. -/
def setK (d : Dict) (k : Str) (v : PyValue) : Dict :=
  if containsK d k then d.map (fun kv => if kv.1 = k then (k, v) else kv)
  else d ++ [(k, v)]

/-- `d.update(upd)` for Python dicts, also the `{**d, **upd}` construction. -/
def updateD (d upd : Dict) : Dict :=
  upd.foldl (fun acc kv => setK acc kv.1 kv.2) d

/-- `d.pop(k)`: the value and the mutated dict, or `none` (a `KeyError`)
when the key is absent. -/
def popK (d : Dict) (k : Str) : Option (PyValue × Dict) :=
  match lookupK d k with
  | some v => some (v, eraseK d k)
  | none => none

/-! ### Basic dict lemmas -/

/-! ## Call resolution (src/codex_veritas/analysis/ast_parser.py)

`resolve_calls` scans the Symbol Table (a Python dict, iterated in
insertion order, embedded here by its key list) for the first key with
`key.endswith("::" + called_name)`. -/

/-- Python `s.endswith(suf)`: the last `suf.length` characters of `s`
equal `suf` (false when `s` is shorter than `suf`). -/
def pyEndsWith (s suf : Str) : Bool :=
  decide (List.drop (s.length - suf.length) s = suf)

/-- The callee heuristic of `resolve_calls`:
`key.endswith(f"::{called_name}")`. -/
def calleeMatches (called_name key : Str) : Bool :=
  pyEndsWith key (s2l "::" ++ called_name)

/-- The `for key in symbol_table: ... break` loop of `resolve_calls`,
lines 140-143: the first key of the table matching the suffix heuristic. -/
def resolveCallee (symtab : List Str) (called_name : Str) : Option Str :=
  symtab.find? (calleeMatches called_name)

/-- Spec-side predicate for the callee heuristic, following the spec's
words: the key's suffix after the LAST occurrence of `::` equals the
captured call name.  `afterLastColons key` is that suffix, `none` when
`::` does not occur in `key`. -/
def afterLastColons : Str → Option Str
  | [] => none
  | c :: rest =>
    match afterLastColons rest with
    | some s => some s
    | none => if c = ':' ∧ rest.head? = some ':' then some (rest.drop 1) else none

/-- Edges contributed by one call site in `resolve_calls` (lines 134-146):
nothing when the caller did not resolve, nothing when no Symbol Table key
matches, otherwise a single CALLS edge. -/
def callSiteEdges (caller : Option Str) (symtab : List Str) (called_name : Str) :
    List Dict :=
  match caller with
  | none => []
  | some c =>
    match resolveCallee symtab called_name with
    | none => []
    | some t =>
      [[(s2l "source", .str c), (s2l "target", .str t),
        (s2l "type", .str (s2l "CALLS"))]]

/-! ### Suffix-heuristic lemmas -/

/-! ## Caller resolution (src/codex_veritas/analysis/ast_parser.py, lines 104-135)

The ancestor chain of a call node is embedded innermost-first; each
ancestor is a function definition, a class definition, or any other
syntax node. -/

inductive AncNode where
  | funcNode (name : Str)
  | classNode (name : Str)
  | otherNode
  deriving DecidableEq

/-- `f"{file_path_str}::{'::'.join(parts)}"` — `_create_unique_id` of
`src/codex/ingestion/parser.py`; the same scheme is inlined in
`ast_parser.py` as `f"{path}::{name}"` / `f"{path}::{cls}::{name}"`. -/
def joinColons : List Str → Str
  | [] => []
  | [p] => p
  | p :: ps => p ++ s2l "::" ++ joinColons ps

def create_unique_id (path : Str) (parts : List Str) : Str :=
  path ++ s2l "::" ++ joinColons parts

/-- The inner `while search_node` loop (lines 113-118): the nearest
enclosing class definition of a candidate function definition, scanning
outward from its parent chain. -/
def nearestClassName : List AncNode → Option Str
  | [] => none
  | .classNode n :: _ => some n
  | .funcNode _ :: rest => nearestClassName rest
  | .otherNode :: rest => nearestClassName rest

/-- The id reconstructed for a candidate enclosing function definition
(lines 120-127): `path::Class::name` using its nearest enclosing class,
else `path::name`. -/
def callerIdOf (path : Str) (anc : List AncNode) (fname : Str) : Str :=
  match nearestClassName anc with
  | some cn => create_unique_id path [cn, fname]
  | none => create_unique_id path [fname]

/-- The outer `while temp_node` loop (lines 106-132): walk the ancestor
chain of the call node innermost-first; a function definition is accepted
as the caller only when its reconstructed id is a Symbol Table key,
otherwise the walk CONTINUES outward (line 132 runs in either case). -/
def findCallerLoop (path : Str) (symtab : List Str) : List AncNode → Option Str
  | [] => none
  | .funcNode fn :: rest =>
    let pid := callerIdOf path rest fn
    if pid ∈ symtab then some pid else findCallerLoop path symtab rest
  | .classNode _ :: rest => findCallerLoop path symtab rest
  | .otherNode :: rest => findCallerLoop path symtab rest

/-- Spec-side caller resolution, following the spec's words: stop at the
NEAREST enclosing function definition, reconstruct its id, and skip the
call site (yield `none`) whenever that id is not a Symbol Table key. -/
def nearestEnclosingCaller (path : Str) (symtab : List Str) : List AncNode → Option Str
  | [] => none
  | .funcNode fn :: rest =>
    let pid := callerIdOf path rest fn
    if pid ∈ symtab then some pid else none
  | .classNode _ :: rest => nearestEnclosingCaller path symtab rest
  | .otherNode :: rest => nearestEnclosingCaller path symtab rest

/-- The reconstructed ids of all ancestor function definitions of a call
node, innermost first. -/
def ancCallerIds (path : Str) : List AncNode → List Str
  | [] => []
  | .funcNode fn :: rest => callerIdOf path rest fn :: ancCallerIds path rest
  | .classNode _ :: rest => ancCallerIds path rest
  | .otherNode :: rest => ancCallerIds path rest

/-! ## The CodeGraph data model (src/codex/graph/core.py)

`CodeGraph` wraps a `networkx.DiGraph`: nodes are ids (arbitrary Python
values) with an attribute dict, and for each ordered pair of nodes there
is at most one edge, with an attribute dict.  Insertion order of nodes
and edges is preserved, matching networkx adjacency iteration order.
Exceptions (`ValueError` from `add_edge`, `KeyError` from `dict.pop`)
are embedded as `Except`. -/

inductive PyErr where
  | valueErrorSource
  | valueErrorTarget
  | keyError (k : Str)
  | powerIterationFailed
  deriving DecidableEq

structure CodeGraph where
  nodes : List (PyValue × Dict)
  edges : List ((PyValue × PyValue) × Dict)
  deriving DecidableEq

def CodeGraph.emptyGraph : CodeGraph := ⟨[], []⟩

/-- `networkx` `has_node`. -/
def hasNodeB (g : CodeGraph) (i : PyValue) : Bool :=
  g.nodes.any (fun nd => decide (nd.1 = i))

/-- `networkx` `has_edge` on the ordered pair. -/
def hasEdgeB (g : CodeGraph) (u v : PyValue) : Bool :=
  g.edges.any (fun e => decide (e.1 = (u, v)))

/-- Attributes of a node (`graph.nodes[i]`; `[]` only reachable for
present nodes in this development). -/
def nodeAttrs (g : CodeGraph) (i : PyValue) : Dict :=
  ((g.nodes.find? (fun nd => decide (nd.1 = i))).map Prod.snd).getD []

/-- `CodeGraph.add_node` / networkx `add_node`: a new id is appended
with its attributes; an existing id has its attribute dict updated in
place (an upsert, never a duplicate). -/
def add_node (g : CodeGraph) (i : PyValue) (attrs : Dict) : CodeGraph :=
  if hasNodeB g i then
    { g with nodes := g.nodes.map (fun nd => if nd.1 = i then (i, updateD nd.2 attrs) else nd) }
  else
    { g with nodes := g.nodes ++ [(i, attrs)] }

/-- networkx `DiGraph.add_edge` (no endpoint check): missing endpoints
are created with empty attributes; an existing `(u, v)` edge has its
attribute dict updated in place, a new one is appended. -/
def addEdgeRaw (g : CodeGraph) (u v : PyValue) (attrs : Dict) : CodeGraph :=
  let g1 := if hasNodeB g u then g else add_node g u []
  let g2 := if hasNodeB g1 v then g1 else add_node g1 v []
  if hasEdgeB g2 u v then
    { g2 with edges := g2.edges.map (fun e => if e.1 = (u, v) then ((u, v), updateD e.2 attrs) else e) }
  else
    { g2 with edges := g2.edges ++ [((u, v), attrs)] }

/-- `CodeGraph.add_edge` (core.py lines 40-56): raises `ValueError` when
the source or the target id is not a node of the graph, otherwise adds
the edge. -/
def add_edge (g : CodeGraph) (source_id target_id : PyValue) (attrs : Dict) :
    Except PyErr CodeGraph :=
  if hasNodeB g source_id = false then .error .valueErrorSource
  else if hasNodeB g target_id = false then .error .valueErrorTarget
  else .ok (addEdgeRaw g source_id target_id attrs)

/-- The node loop of `CodeGraph.merge_components` (lines 66-68):
`node_id = node_data.pop("id"); add_node(node_id, **node_data)`.
Returns the grown graph together with the mutated node dicts. -/
def mergeNodesLoop (g : CodeGraph) : List Dict → Except PyErr (CodeGraph × List Dict)
  | [] => .ok (g, [])
  | d :: ds =>
    match popK d (s2l "id") with
    | none => .error (.keyError (s2l "id"))
    | some (i, d1) =>
      match mergeNodesLoop (add_node g i d1) ds with
      | .error e => .error e
      | .ok (g1, ds1) => .ok (g1, d1 :: ds1)

/-- The edge loop of `CodeGraph.merge_components` (lines 70-73):
`source = edge_data.pop("source"); target = edge_data.pop("target");
add_edge(source, target, **edge_data)`.  Returns the grown graph with
the mutated edge dicts. -/
def mergeEdgesLoop (g : CodeGraph) : List Dict → Except PyErr (CodeGraph × List Dict)
  | [] => .ok (g, [])
  | d :: ds =>
    match popK d (s2l "source") with
    | none => .error (.keyError (s2l "source"))
    | some (u, d1) =>
      match popK d1 (s2l "target") with
      | none => .error (.keyError (s2l "target"))
      | some (v, d2) =>
        match add_edge g u v d2 with
        | .error e => .error e
        | .ok g1 =>
          match mergeEdgesLoop g1 ds with
          | .error e => .error e
          | .ok (g2, ds1) => .ok (g2, d2 :: ds1)

/-- `CodeGraph.merge_components` (lines 58-73): all nodes of the batch
first, then all edges.  The result also carries the mutated input lists
(the Python code pops keys out of the caller's dicts in place). -/
def merge_components (g : CodeGraph) (nodes edges : List Dict) :
    Except PyErr (CodeGraph × List Dict × List Dict) :=
  match mergeNodesLoop g nodes with
  | .error e => .error e
  | .ok (g1, nodes1) =>
    match mergeEdgesLoop g1 edges with
    | .error e => .error e
    | .ok (g2, edges1) => .ok (g2, nodes1, edges1)

/-- `CodeGraph.get_callers` (lines 75-93): `[]` for an unknown id,
otherwise `{"id": p, **attrs(p)}` for every predecessor `p` — with NO
restriction on the edge type, despite the docstring. -/
def get_callers (g : CodeGraph) (node_id : PyValue) : List Dict :=
  if hasNodeB g node_id = false then []
  else
    ((g.edges.filter (fun e => decide (e.1.2 = node_id))).map (fun e => e.1.1)).map
      (fun cid => updateD [(s2l "id", cid)] (nodeAttrs g cid))

/-- `CodeGraph.get_callees` (lines 95-113): `[]` for an unknown id,
otherwise all successors, again with no restriction on the edge type. -/
def get_callees (g : CodeGraph) (node_id : PyValue) : List Dict :=
  if hasNodeB g node_id = false then []
  else
    ((g.edges.filter (fun e => decide (e.1.1 = node_id))).map (fun e => e.1.2)).map
      (fun cid => updateD [(s2l "id", cid)] (nodeAttrs g cid))

/-! ### Serialization (core.py lines 115-139)

`serialize_to_json` writes `json_graph.node_link_data(graph, edges="links")`;
`load_from_json` reads it back with `json_graph.node_link_graph`.  The
JSON text layer maps strings/ints/floats losslessly, so the embedding
works at the level of the node-link structure. -/

structure NodeLinkData where
  nodes : List Dict
  links : List Dict
  deriving DecidableEq

/-- `node_link_data(graph, edges="links")`: each node becomes
`{**attrs, "id": id}`, each edge `{**attrs, "source": u, "target": v}`. -/
def serialize_to_json (g : CodeGraph) : NodeLinkData where
  nodes := g.nodes.map (fun nd => updateD nd.2 [(s2l "id", nd.1)])
  links := g.edges.map (fun e => updateD e.2 [(s2l "source", e.1.1), (s2l "target", e.1.2)])

/-- The node phase of `node_link_graph`: add each node under its `"id"`
key with the remaining entries as attributes. -/
def loadNodesLoop (g : CodeGraph) : List Dict → Except PyErr CodeGraph
  | [] => .ok g
  | d :: ds =>
    match lookupK d (s2l "id") with
    | none => .error (.keyError (s2l "id"))
    | some i => loadNodesLoop (add_node g i (eraseK d (s2l "id"))) ds

/-- The edge phase of `node_link_graph`: add each link between its
`"source"` and `"target"` values with the remaining entries as
attributes (networkx `add_edge`, no endpoint check). -/
def loadLinksLoop (g : CodeGraph) : List Dict → Except PyErr CodeGraph
  | [] => .ok g
  | d :: ds =>
    match lookupK d (s2l "source"), lookupK d (s2l "target") with
    | some u, some v =>
      loadLinksLoop (addEdgeRaw g u v (eraseK (eraseK d (s2l "source")) (s2l "target"))) ds
    | none, _ => .error (.keyError (s2l "source"))
    | some _, none => .error (.keyError (s2l "target"))

/-- `CodeGraph.load_from_json`: rebuild a graph from node-link data. -/
def load_from_json (data : NodeLinkData) : Except PyErr CodeGraph :=
  match loadNodesLoop CodeGraph.emptyGraph data.nodes with
  | .error e => .error e
  | .ok g1 => loadLinksLoop g1 data.links

/-! ## Per-file extraction (src/codex/ingestion/parser.py)

A Python file is embedded by its definition tree (classes and functions
with their nesting), the dotted names captured by the import query in
capture order, a syntax-error flag for the root node, and position data.
The tree-sitter queries return captures in tree (pre)order; the
`startLine`/`endLine` numbers are the 0-based rows of the captured name
identifiers, to which the source adds 1. -/

inductive PyDef where
  | classDef (name : Str) (startLine endLine : Nat) (body : List PyDef)
  | funcDef (name : Str) (startLine endLine : Nat) (body : List PyDef)

structure DefInfo where
  name : Str
  startLine : Nat
  endLine : Nat
  body : List PyDef

structure PyFile where
  path : Str
  fname : Str
  hasError : Bool
  defs : List PyDef
  imports : List Str
  lineCount : Nat

/-- All class definitions of a tree in pre-order: the class query
`(class_definition name: (identifier) @class.name)` captures nested
classes too. -/
def allClasses : List PyDef → List DefInfo
  | [] => []
  | .classDef n s e b :: rest => ⟨n, s, e, b⟩ :: (allClasses b ++ allClasses rest)
  | .funcDef _ _ _ b :: rest => allClasses b ++ allClasses rest

/-- All function definitions of a subtree in pre-order: the function
query run over a class body (`func_query.captures(node.parent)`) captures
every function definition in the whole subtree. -/
def allFuncs : List PyDef → List DefInfo
  | [] => []
  | .classDef _ _ _ b :: rest => allFuncs b ++ allFuncs rest
  | .funcDef n s e b :: rest => ⟨n, s, e, b⟩ :: (allFuncs b ++ allFuncs rest)

/-- Function definitions with no class ancestor, in pre-order: the
`is_method` ancestor-walk check (parser.py line 138) excludes functions
inside any class definition, but keeps functions nested in functions. -/
def freeFuncs : List PyDef → List DefInfo
  | [] => []
  | .classDef _ _ _ _ :: rest => freeFuncs rest
  | .funcDef n s e b :: rest => ⟨n, s, e, b⟩ :: (freeFuncs b ++ freeFuncs rest)

/-- The File node dict (parser.py lines 91-95). -/
def fileDict (f : PyFile) : Dict :=
  [(s2l "id", .str f.path), (s2l "type", .str (s2l "File")),
   (s2l "name", .str f.fname), (s2l "file_path", .str f.path),
   (s2l "start_line", .int 0), (s2l "end_line", .int f.lineCount)]

/-- A Class node dict (lines 116-120). -/
def classNodeDict (path : Str) (c : DefInfo) : Dict :=
  [(s2l "id", .str (create_unique_id path [c.name])), (s2l "type", .str (s2l "Class")),
   (s2l "name", .str c.name), (s2l "file_path", .str path),
   (s2l "start_line", .int (c.startLine + 1)), (s2l "end_line", .int (c.endLine + 1))]

/-- A Method node dict (lines 129-133). -/
def methodNodeDict (path : Str) (cname : Str) (m : DefInfo) : Dict :=
  [(s2l "id", .str (create_unique_id path [cname, m.name])), (s2l "type", .str (s2l "Method")),
   (s2l "name", .str m.name), (s2l "file_path", .str path),
   (s2l "start_line", .int (m.startLine + 1)), (s2l "end_line", .int (m.endLine + 1))]

/-- A top-level Function node dict (lines 142-146). -/
def funcNodeDict (path : Str) (fn : DefInfo) : Dict :=
  [(s2l "id", .str (create_unique_id path [fn.name])), (s2l "type", .str (s2l "Function")),
   (s2l "name", .str fn.name), (s2l "file_path", .str path),
   (s2l "start_line", .int (fn.startLine + 1)), (s2l "end_line", .int (fn.endLine + 1))]

/-- An Import node dict (lines 157-160). -/
def importNodeDict (iid nm : Str) : Dict :=
  [(s2l "id", .str iid), (s2l "type", .str (s2l "Import")),
   (s2l "name", .str nm), (s2l "file_path", .str (s2l "external")),
   (s2l "start_line", .int 0), (s2l "end_line", .int 0)]

def definesEdge (s t : Str) : Dict :=
  [(s2l "source", .str s), (s2l "target", .str t), (s2l "type", .str (s2l "DEFINES"))]

def importsEdge (s t : Str) : Dict :=
  [(s2l "source", .str s), (s2l "target", .str t), (s2l "type", .str (s2l "IMPORTS"))]

/-- The class portion of the captures loop (lines 111-134): for each
captured class, its node followed immediately by a Method node for every
function definition in its body subtree. -/
def classSectionNodes (path : Str) (defs : List PyDef) : List Dict :=
  (allClasses defs).flatMap (fun c =>
    classNodeDict path c :: (allFuncs c.body).map (fun m => methodNodeDict path c.name m))

def classSectionEdges (path : Str) (defs : List PyDef) : List Dict :=
  (allClasses defs).flatMap (fun c =>
    definesEdge path (create_unique_id path [c.name]) ::
      (allFuncs c.body).map (fun m =>
        definesEdge (create_unique_id path [c.name]) (create_unique_id path [c.name, m.name])))

/-- The function portion of the captures loop (lines 136-147). -/
def funcSectionNodes (path : Str) (defs : List PyDef) : List Dict :=
  (freeFuncs defs).map (funcNodeDict path)

def funcSectionEdges (path : Str) (defs : List PyDef) : List Dict :=
  (freeFuncs defs).map (fun fn => definesEdge path (create_unique_id path [fn.name]))

/-- The import loop (lines 150-161): synthesize `import::<name>`, add a
node only when no dict already in the batch carries that id, and always
append an IMPORTS edge. -/
def importLoop (file_id : Str) : List Dict → List Dict → List Str → List Dict × List Dict
  | cur, eds, [] => (cur, eds)
  | cur, eds, nm :: rest =>
    let iid := s2l "import::" ++ nm
    let cur1 :=
      if cur.any (fun d => decide (lookupK d (s2l "id") = some (.str iid))) then cur
      else cur ++ [importNodeDict iid nm]
    importLoop file_id cur1 (eds ++ [importsEdge file_id iid]) rest

/-- `parse_file_to_graph_components` (parser.py lines 52-173): an
all-or-nothing parse — a root with any syntax error contributes
`([], [])`; otherwise the File node, the class/method nodes, the
top-level function nodes, and the deduplicated import nodes, with their
DEFINES/IMPORTS edges. -/
def parse_file_to_graph_components (f : PyFile) : List Dict × List Dict :=
  if f.hasError then ([], [])
  else
    importLoop f.path
      (fileDict f :: (classSectionNodes f.path f.defs ++ funcSectionNodes f.path f.defs))
      (classSectionEdges f.path f.defs ++ funcSectionEdges f.path f.defs)
      f.imports

/-- The ids carried by the dicts of a batch, in batch order. -/
def batchIds (l : List Dict) : List (Option PyValue) :=
  l.map (fun d => lookupK d (s2l "id"))

/-- Modelled from the spec: the per-file loop of the `parse` command in
src/codex/ingestion/main.py (lines 105-113), which parses each file and
merges its components into the main graph.  (The literal source calls
`parse_file_to_graph_components(file_path, repo_path)` with two
arguments although parser.py declares one parameter, so as written every
run raises `TypeError` at the first file; this definition composes the
loop the way the spec describes it.) -/
def ingestFrom (g : CodeGraph) : List PyFile → Except PyErr CodeGraph
  | [] => .ok g
  | f :: fs =>
    match merge_components g (parse_file_to_graph_components f).1
        (parse_file_to_graph_components f).2 with
    | .error e => .error e
    | .ok (g1, _, _) => ingestFrom g1 fs

/-! ## Centrality ranking (src/codex/report/ranking.py)

`rank_nodes_by_centrality` delegates the PageRank computation to
`networkx.pagerank`, called with `alpha = 0.85`; the computation is
embedded as an oracle argument returning either a score table or an
exception (e.g. `PowerIterationFailedConvergence`). -/

/-- `data.get("type") in ["Class", "Method", "Function"]`. -/
def typeAllowed (d : Dict) : Bool :=
  decide (lookupK d (s2l "type") = some (.str (s2l "Class"))) ||
  decide (lookupK d (s2l "type") = some (.str (s2l "Method"))) ||
  decide (lookupK d (s2l "type") = some (.str (s2l "Function")))

/-- `centrality_scores.get(node_id, 0)`. -/
def scoreOf (scores : List (PyValue × Rat)) (i : PyValue) : Rat :=
  ((scores.find? (fun p => decide (p.1 = i))).map Prod.snd).getD 0

/-- The sort key `x["rank"]` of ranking.py line 68. -/
def rankKey (d : Dict) : Rat :=
  match lookupK d (s2l "rank") with
  | some (.rat q) => q
  | _ => 0

/-- Stable descending insertion, mirroring
`list.sort(key=..., reverse=True)`. -/
def insertDesc (d : Dict) : List Dict → List Dict
  | [] => [d]
  | x :: xs => if rankKey x ≤ rankKey d then d :: x :: xs else x :: insertDesc d xs

def sortDesc : List Dict → List Dict
  | [] => []
  | d :: ds => insertDesc d (sortDesc ds)

/-- `rank_nodes_by_centrality` (ranking.py lines 24-70): `[]` for an
empty graph; `[]` when PageRank raises; otherwise every
Class/Method/Function node as `{"id": i, "rank": score, **data}`,
sorted descending by rank, truncated to `top_n`. -/
def rank_nodes_by_centrality
    (pagerank : Rat → CodeGraph → Except PyErr (List (PyValue × Rat)))
    (g : CodeGraph) (top_n : Nat) : List Dict :=
  if g.nodes.isEmpty then []
  else
    match pagerank (85 / 100 : Rat) g with
    | .error _ => []
    | .ok scores =>
      (sortDesc ((g.nodes.filter (fun nd => typeAllowed nd.2)).map
        (fun nd => updateD [(s2l "id", nd.1), (s2l "rank", .rat (scoreOf scores nd.1))] nd.2))).take top_n


/-! ### Concrete instances used by witnesses and counterexamples -/

/-- A two-node graph whose only edge is a DEFINES edge, built through the
public `add_node`/`add_edge` API. -/
def c4Graph : CodeGraph :=
  addEdgeRaw
    (add_node (add_node CodeGraph.emptyGraph (.str (s2l "app.py"))
        [(s2l "type", .str (s2l "File"))])
      (.str (s2l "app.py::helper")) [(s2l "type", .str (s2l "Function"))])
    (.str (s2l "app.py")) (.str (s2l "app.py::helper"))
    [(s2l "type", .str (s2l "DEFINES"))]


/-- A small two-node graph for exercising the ranker. -/
def c9Graph : CodeGraph :=
  add_node (add_node CodeGraph.emptyGraph (.str (s2l "m.py"))
      [(s2l "type", .str (s2l "File"))])
    (.str (s2l "m.py::f")) [(s2l "type", .str (s2l "Function"))]

/-- A concrete stand-in for `networkx.pagerank`: every node scores 1. -/
def c9Oracle : Rat → CodeGraph → Except PyErr (List (PyValue × Rat)) :=
  fun _ g => .ok (g.nodes.map (fun nd => (nd.1, 1)))


/-- The node ids of a graph, in insertion order. -/
def nodeIds (g : CodeGraph) : List PyValue := g.nodes.map Prod.fst


/-- A file whose parse-tree root reports an error. -/
def errorFile : PyFile :=
  { path := s2l "bad.py", fname := s2l "bad.py", hasError := true,
    defs := [], imports := [], lineCount := 1 }

def c7NodesIn : List Dict :=
  [[(s2l "id", .str (s2l "a.py")), (s2l "type", .str (s2l "File"))]]

def c7EdgesIn : List Dict :=
  [[(s2l "source", .str (s2l "a.py")), (s2l "target", .str (s2l "a.py")),
    (s2l "type", .str (s2l "IMPORTS"))]]

def c7Graph : CodeGraph :=
  ⟨[(.str (s2l "a.py"), [(s2l "type", .str (s2l "File"))])],
   [((.str (s2l "a.py"), .str (s2l "a.py")), [(s2l "type", .str (s2l "IMPORTS"))])]⟩

def c10NodesIn : List Dict :=
  [[(s2l "id", .str (s2l "b.py")), (s2l "type", .str (s2l "File"))],
   [(s2l "id", .str (s2l "b.py::f")), (s2l "type", .str (s2l "Function"))]]

def c10EdgesIn : List Dict :=
  [[(s2l "source", .str (s2l "b.py")), (s2l "target", .str (s2l "b.py::f")),
    (s2l "type", .str (s2l "DEFINES"))]]

def c10Graph : CodeGraph :=
  ⟨[(.str (s2l "b.py"), [(s2l "type", .str (s2l "File"))]),
    (.str (s2l "b.py::f"), [(s2l "type", .str (s2l "Function"))])],
   [((.str (s2l "b.py"), .str (s2l "b.py::f")), [(s2l "type", .str (s2l "DEFINES"))])]⟩


/-- Invariants maintained by every graph built through
`merge_components`: node ids and directed edge keys are duplicate-free
(networkx dict semantics), stored attribute dicts never contain the
reserved node-link keys (they were popped before storage), and every
edge endpoint is a node (the `add_edge` gate). -/
structure GoodGraph (g : CodeGraph) : Prop where
  nodup_nodes : (g.nodes.map Prod.fst).Nodup
  nodup_edges : (g.edges.map Prod.fst).Nodup
  nodes_clean : ∀ nd ∈ g.nodes, containsK nd.2 (s2l "id") = false
  edges_clean : ∀ e ∈ g.edges, containsK e.2 (s2l "source") = false ∧
    containsK e.2 (s2l "target") = false
  endpoints : ∀ e ∈ g.edges, hasNodeB g e.1.1 = true ∧ hasNodeB g e.1.2 = true

/-- Graphs reachable from the empty graph by successful
`merge_components` calls — the graphs the ingestion pipeline builds. -/
inductive MergeReach : CodeGraph → Prop where
  | base : MergeReach CodeGraph.emptyGraph
  | step (g g1 : CodeGraph) (ns es ns1 es1 : List Dict) :
      MergeReach g → merge_components g ns es = .ok (g1, ns1, es1) → MergeReach g1

def c5NodesIn : List Dict :=
  [[(s2l "id", .str (s2l "x.py")), (s2l "type", .str (s2l "File"))],
   [(s2l "id", .str (s2l "x.py::g")), (s2l "type", .str (s2l "Function"))]]

def c5EdgesIn : List Dict :=
  [[(s2l "source", .str (s2l "x.py")), (s2l "target", .str (s2l "x.py::g")),
    (s2l "type", .str (s2l "DEFINES"))]]

def c5Graph : CodeGraph :=
  ⟨[(.str (s2l "x.py"), [(s2l "type", .str (s2l "File"))]),
    (.str (s2l "x.py::g"), [(s2l "type", .str (s2l "Function"))])],
   [((.str (s2l "x.py"), .str (s2l "x.py::g")), [(s2l "type", .str (s2l "DEFINES"))])]⟩


/-- A zero-syntax-error file containing two same-named top-level
functions — legal Python (the second redefines the first). -/
def dupFile : PyFile :=
  { path := s2l "m.py", fname := s2l "m.py", hasError := false,
    defs := [.funcDef (s2l "f") 0 0 [], .funcDef (s2l "f") 1 1 []],
    imports := [], lineCount := 2 }

/-- A well-formed file with a class, a method, a top-level function and
an import — all definition names distinct. -/
def okFile : PyFile :=
  { path := s2l "w.py", fname := s2l "w.py", hasError := false,
    defs := [.classDef (s2l "A") 0 5 [.funcDef (s2l "m") 1 2 []],
             .funcDef (s2l "g") 6 7 []],
    imports := [s2l "os"], lineCount := 8 }


/-- The node loop of `merge_components` tracking the state of the
caller's dict list in every outcome: `dict.pop` mutates in place, so
when a later iteration raises, the dicts already processed stay popped
and the rest stay untouched (a `pop` on a missing key raises without
mutating its dict). -/
def mergeNodesRun (g : CodeGraph) : List Dict → (Except PyErr CodeGraph) × List Dict
  | [] => (.ok g, [])
  | d :: ds =>
    match popK d (s2l "id") with
    | none => (.error (.keyError (s2l "id")), d :: ds)
    | some (i, d1) =>
      let r := mergeNodesRun (add_node g i d1) ds
      (r.1, d1 :: r.2)

/-- The edge loop of `merge_components` tracking the caller's dict list
in every outcome.  When `add_edge` raises, both pops of the current dict
have already happened, so that dict has lost `source`/`target` while
every later dict is untouched. -/
def mergeEdgesRun (g : CodeGraph) : List Dict → (Except PyErr CodeGraph) × List Dict
  | [] => (.ok g, [])
  | d :: ds =>
    match popK d (s2l "source") with
    | none => (.error (.keyError (s2l "source")), d :: ds)
    | some (u, d1) =>
      match popK d1 (s2l "target") with
      | none => (.error (.keyError (s2l "target")), d1 :: ds)
      | some (v, d2) =>
        match add_edge g u v d2 with
        | .error e => (.error e, d2 :: ds)
        | .ok g1 =>
          let r := mergeEdgesRun g1 ds
          (r.1, d2 :: r.2)

/-- `CodeGraph.merge_components` (core.py lines 58-73) together with the
state of the caller's node and edge dict lists after the call, whether
it returned or raised: nodes first, and the edge loop is never entered
when the node loop raises. -/
def merge_components_run (g : CodeGraph) (nodes edges : List Dict) :
    (Except PyErr CodeGraph) × List Dict × List Dict :=
  match mergeNodesRun g nodes with
  | (.error e, nodes1) => (.error e, nodes1, edges)
  | (.ok g1, nodes1) =>
    let r := mergeEdgesRun g1 edges
    (r.1, nodes1, r.2)

/-- A batch whose second edge cannot be merged: its target id is not a
node. -/
def c10CexNodes : List Dict :=
  [[(s2l "id", .str (s2l "z.py")), (s2l "type", .str (s2l "File"))]]

def c10CexEdges : List Dict :=
  [[(s2l "source", .str (s2l "z.py")), (s2l "target", .str (s2l "z.py::missing")),
    (s2l "type", .str (s2l "CALLS"))],
   [(s2l "source", .str (s2l "z.py")), (s2l "target", .str (s2l "z.py::other")),
    (s2l "type", .str (s2l "CALLS"))]]

/-! ## Theorems -/

theorem lookupK_cons_self (k : Str) (v : PyValue) (d : Dict) :
    lookupK ((k, v) :: d) k = some v := by
  simp [lookupK, List.find?]

theorem lookupK_cons_ne (k k' : Str) (v : PyValue) (d : Dict) (h : k' ≠ k) :
    lookupK ((k', v) :: d) k = lookupK d k := by
  simp [lookupK, List.find?, h]

theorem containsK_eq_false_iff (d : Dict) (k : Str) :
    containsK d k = false ↔ ∀ kv ∈ d, kv.1 ≠ k := by
  simp [containsK]

theorem lookupK_append_right (d d' : Dict) (k : Str) (h : containsK d k = false) :
    lookupK (d ++ d') k = lookupK d' k := by
  induction d with
  | nil => rfl
  | cons kv rest ih =>
    have h1 : kv.1 ≠ k := (containsK_eq_false_iff _ _).1 h kv (by simp)
    have h2 : containsK rest k = false := by
      rw [containsK_eq_false_iff]
      intro x hx
      exact (containsK_eq_false_iff _ _).1 h x (by simp [hx])
    rcases kv with ⟨a, b⟩
    rw [List.cons_append, lookupK_cons_ne _ _ _ _ h1, ih h2]

theorem eraseK_append (d d' : Dict) (k : Str) :
    eraseK (d ++ d') k = eraseK d k ++ eraseK d' k := by
  simp [eraseK, List.filter_append]

theorem eraseK_of_not_contains (d : Dict) (k : Str) (h : containsK d k = false) :
    eraseK d k = d := by
  rw [containsK_eq_false_iff] at h
  induction d with
  | nil => rfl
  | cons kv rest ih =>
    have h1 : kv.1 ≠ k := h kv (by simp)
    have h2 : eraseK rest k = rest := ih (fun x hx => h x (by simp [hx]))
    simp [eraseK] at h2 ⊢
    exact ⟨h1, h2⟩

theorem setK_of_not_contains (d : Dict) (k : Str) (v : PyValue)
    (h : containsK d k = false) : setK d k v = d ++ [(k, v)] := by
  simp [setK, h]

theorem containsK_append (d d' : Dict) (k : Str) :
    containsK (d ++ d') k = (containsK d k || containsK d' k) := by
  simp [containsK, List.any_append]

theorem pyEndsWith_iff (s suf : Str) :
    pyEndsWith s suf = true ↔ ∃ p, s = p ++ suf := by
  unfold pyEndsWith
  rw [decide_eq_true_iff]
  constructor
  · intro h
    refine ⟨List.take (s.length - suf.length) s, ?_⟩
    conv_lhs => rw [← List.take_append_drop (s.length - suf.length) s]
    rw [h]
  · rintro ⟨p, rfl⟩
    have hlen : (p ++ suf).length - suf.length = p.length := by
      simp
    rw [hlen, List.drop_left]

theorem afterLastColons_isSome_colon {key : Str} {s : Str}
    (h : afterLastColons key = some s) : ':' ∈ key := by
  induction key with
  | nil => simp [afterLastColons] at h
  | cons c rest ih =>
    rw [afterLastColons] at h
    cases hrec : afterLastColons rest with
    | some t =>
      rw [hrec] at h
      exact List.mem_cons_of_mem _ (ih (by rw [hrec]; exact h))
    | none =>
      rw [hrec] at h
      by_cases hc : c = ':' ∧ rest.head? = some ':'
      · exact hc.1 ▸ List.mem_cons_self _ _
      · simp [hc] at h

theorem afterLastColons_of_no_colon {key : Str} (h : ':' ∉ key) :
    afterLastColons key = none := by
  cases hres : afterLastColons key with
  | none => rfl
  | some s => exact absurd (afterLastColons_isSome_colon hres) h

theorem afterLastColons_eq_iff {key name : Str} (hname : ':' ∉ name) :
    afterLastColons key = some name ↔ ∃ p, key = p ++ s2l "::" ++ name := by
  constructor
  · intro h
    induction key with
    | nil => simp [afterLastColons] at h
    | cons c rest ih =>
      rw [afterLastColons] at h
      cases hrec : afterLastColons rest with
      | some t =>
        rw [hrec] at h
        obtain ⟨p, hp⟩ := ih (by rw [hrec]; exact h)
        exact ⟨c :: p, by simp [hp]⟩
      | none =>
        rw [hrec] at h
        by_cases hc : c = ':' ∧ rest.head? = some ':'
        · rw [if_pos hc] at h
          obtain ⟨hceq, hhead⟩ := hc
          have hdrop : rest.drop 1 = name := Option.some.inj h
          have hrest : rest = ':' :: rest.drop 1 := by
            cases rest with
            | nil => simp at hhead
            | cons r rs =>
              simp at hhead
              simp [hhead]
          refine ⟨[], ?_⟩
          rw [hceq, hrest, hdrop]
          rfl
        · simp [hc] at h
  · rintro ⟨p, hp⟩
    subst hp
    induction p with
    | nil =>
      have hnone : afterLastColons name = none := afterLastColons_of_no_colon hname
      show afterLastColons (':' :: ':' :: name) = some name
      rw [afterLastColons]
      have hinner : afterLastColons (':' :: name) = none := by
        rw [afterLastColons, hnone]
        have : ¬ (name.head? = some ':') := by
          intro hcontra
          cases name with
          | nil => simp at hcontra
          | cons a as =>
            simp at hcontra
            exact hname (hcontra ▸ List.mem_cons_self _ _)
        simp [this]
      rw [hinner]
      simp
    | cons a ps ih =>
      show afterLastColons (a :: (ps ++ s2l "::" ++ name)) = some name
      rw [afterLastColons, ih]

theorem find?_congrOn {α : Type} (p q : α → Bool) (l : List α)
    (h : ∀ a ∈ l, p a = q a) : l.find? p = l.find? q := by
  induction l with
  | nil => rfl
  | cons x xs ih =>
    rw [List.find?, List.find?, h x (by simp)]
    cases q x with
    | true => rfl
    | false => exact ih (fun a ha => h a (by simp [ha]))

theorem calleeMatches_iff_spec {name : Str} (key : Str) (h : ':' ∉ name) :
    calleeMatches name key = true ↔ afterLastColons key = some name := by
  rw [calleeMatches, pyEndsWith_iff, afterLastColons_eq_iff h]
  constructor
  · rintro ⟨p, hp⟩; exact ⟨p, by rw [hp, List.append_assoc]⟩
  · rintro ⟨p, hp⟩; exact ⟨p, by rw [hp, List.append_assoc]⟩


theorem addEdgeRaw_of_present (g : CodeGraph) (u v : PyValue) (attrs : Dict)
    (hu : hasNodeB g u = true) (hv : hasNodeB g v = true) :
    addEdgeRaw g u v attrs =
      if hasEdgeB g u v then
        { g with edges := g.edges.map (fun e =>
            if e.1 = (u, v) then ((u, v), updateD e.2 attrs) else e) }
      else { g with edges := g.edges ++ [((u, v), attrs)] } := by
  unfold addEdgeRaw
  simp [hu, hv]

theorem addEdgeRaw_present_props (g : CodeGraph) (u v : PyValue) (attrs : Dict)
    (hu : hasNodeB g u = true) (hv : hasNodeB g v = true) :
    hasEdgeB (addEdgeRaw g u v attrs) u v = true ∧
      (addEdgeRaw g u v attrs).nodes = g.nodes := by
  rw [addEdgeRaw_of_present g u v attrs hu hv]
  by_cases he : hasEdgeB g u v = true
  · rw [if_pos he]
    refine ⟨?_, rfl⟩
    rw [hasEdgeB] at he ⊢
    simp only [List.any_eq_true] at he ⊢
    obtain ⟨e, hmem, hpe⟩ := he
    exact ⟨((u, v), updateD e.2 attrs),
      List.mem_map.mpr ⟨e, hmem, by rw [if_pos (of_decide_eq_true hpe)]⟩,
      by simp⟩
  · rw [if_neg he]
    refine ⟨?_, rfl⟩
    simp [hasEdgeB, List.any_append]

/-- C3: `add_edge` fails with a missing-endpoint `ValueError` whenever
either the source id or the target id is not already a node of the graph
— for every graph state, hence regardless of the order in which nodes
and edges were previously added — and succeeds, adding the edge, when
both endpoints exist. -/
theorem add_edge_endpoint_gate (g : CodeGraph) (s t : PyValue) (attrs : Dict) :
    ((hasNodeB g s = false ∨ hasNodeB g t = false) →
      ∃ e, add_edge g s t attrs = Except.error e) ∧
    (hasNodeB g s = true → hasNodeB g t = true →
      ∃ g1, add_edge g s t attrs = Except.ok g1 ∧ hasEdgeB g1 s t = true ∧
        g1.nodes = g.nodes) := by
  constructor
  · intro hmiss
    unfold add_edge
    rcases hmiss with hs | ht
    · exact ⟨.valueErrorSource, by rw [if_pos hs]⟩
    · by_cases hs : hasNodeB g s = false
      · exact ⟨.valueErrorSource, by rw [if_pos hs]⟩
      · exact ⟨.valueErrorTarget, by rw [if_neg hs, if_pos ht]⟩
  · intro hs ht
    refine ⟨addEdgeRaw g s t attrs, ?_, addEdgeRaw_present_props g s t attrs hs ht⟩
    unfold add_edge
    rw [if_neg (by simp [hs]), if_neg (by simp [ht])]

/-- Witness for C3 at concrete inputs: a graph holding only node `a`
rejects the edge `a → b`, and a graph holding `a` and `b` accepts it. -/
theorem add_edge_endpoint_gate_witness :
    (∃ e, add_edge (add_node CodeGraph.emptyGraph (.str (s2l "a")) [])
        (.str (s2l "a")) (.str (s2l "b")) [] = Except.error e) ∧
    (∃ g1, add_edge (add_node (add_node CodeGraph.emptyGraph (.str (s2l "a")) [])
          (.str (s2l "b")) [])
        (.str (s2l "a")) (.str (s2l "b")) [] = Except.ok g1 ∧
        hasEdgeB g1 (.str (s2l "a")) (.str (s2l "b")) = true ∧
        g1.nodes = (add_node (add_node CodeGraph.emptyGraph (.str (s2l "a")) [])
          (.str (s2l "b")) []).nodes) :=
  ⟨(add_edge_endpoint_gate _ _ _ []).1 (Or.inr (by decide)),
   (add_edge_endpoint_gate _ _ _ []).2 (by decide) (by decide)⟩

/-- C1: for a call site whose caller resolved, the callee id is the FIRST
Symbol Table key (in table iteration order) whose suffix after the last
`::` equals the captured call name — the code's `endswith("::" + name)`
scan agrees with that spec reading for any captured name free of colons,
as Python identifiers are — and when no key matches, the call site emits
no CALLS edge. -/
theorem resolveCallee_first_suffix_match (symtab : List Str) (called_name c : Str)
    (h : ':' ∉ called_name) :
    resolveCallee symtab called_name =
      symtab.find? (fun key => decide (afterLastColons key = some called_name)) ∧
    (resolveCallee symtab called_name = none →
      callSiteEdges (some c) symtab called_name = []) := by
  constructor
  · unfold resolveCallee
    apply find?_congrOn
    intro key _
    by_cases hk : afterLastColons key = some called_name
    · rw [(calleeMatches_iff_spec key h).2 hk, decide_eq_true hk]
    · have hne : calleeMatches called_name key = false := by
        cases hb : calleeMatches called_name key with
        | false => rfl
        | true => exact absurd ((calleeMatches_iff_spec key h).1 hb) hk
      rw [hne, decide_eq_false hk]
  · intro h0
    simp [callSiteEdges, h0]

/-- Witness for C1: a two-key table where the first key matches by
suffix; the callee resolves to it, in iteration order. -/
theorem resolveCallee_first_suffix_match_witness :
    (':' ∉ s2l "run") ∧
    resolveCallee [s2l "util.py::Helper::run", s2l "app.py::run"] (s2l "run") =
      [s2l "util.py::Helper::run", s2l "app.py::run"].find?
        (fun key => decide (afterLastColons key = some (s2l "run"))) ∧
    resolveCallee [s2l "util.py::Helper::run", s2l "app.py::run"] (s2l "run") =
      some (s2l "util.py::Helper::run") :=
  ⟨by decide,
   (resolveCallee_first_suffix_match _ _ (s2l "x") (by decide)).1,
   by decide⟩

/-- C2 counterexample: with nested function definitions, the caller walk
does NOT stop at the nearest enclosing definition.  Here the nearest
enclosing definition reconstructs to `f.py::inner`, which is not a
Symbol Table key, so per the claim the call site would be skipped; the
code instead keeps walking and attributes the call to `f.py::outer`. -/
theorem findCallerLoop_not_nearest_cex :
    findCallerLoop (s2l "f.py") [s2l "f.py::outer"]
        [.otherNode, .funcNode (s2l "inner"), .funcNode (s2l "outer")] =
      some (s2l "f.py::outer") ∧
    nearestEnclosingCaller (s2l "f.py") [s2l "f.py::outer"]
        [.otherNode, .funcNode (s2l "inner"), .funcNode (s2l "outer")] = none ∧
    callerIdOf (s2l "f.py") [.funcNode (s2l "outer")] (s2l "inner") =
      s2l "f.py::inner" ∧
    (s2l "f.py::inner") ∉ [s2l "f.py::outer"] := by
  refine ⟨by decide, by decide, by decide, by decide⟩

/-- C2 amended: the caller id is the first ancestor function definition,
walking from the call node outward, whose reconstructed
`path::[Class::]name` id (the class part being that definition's nearest
enclosing class) is already a Symbol Table key; only when no ancestor
definition reconstructs to a table key is the call site skipped. -/
theorem findCallerLoop_eq_first_candidate (path : Str) (symtab : List Str)
    (anc : List AncNode) :
    findCallerLoop path symtab anc =
      (ancCallerIds path anc).find? (fun pid => decide (pid ∈ symtab)) := by
  induction anc with
  | nil => rfl
  | cons a rest ih =>
    cases a with
    | funcNode fn =>
      rw [findCallerLoop, ancCallerIds, List.find?]
      by_cases hp : callerIdOf path rest fn ∈ symtab
      · simp [hp]
      · simp only [hp, decide_False]
        rw [if_neg (by simp [hp])]
        exact ih
    | classNode n =>
      rw [findCallerLoop, ancCallerIds]
      exact ih
    | otherNode =>
      rw [findCallerLoop, ancCallerIds]
      exact ih

/-- C4 evaluation at the failing input: in a graph whose only edge is a
DEFINES edge `app.py → app.py::helper`, built through the checked
`add_edge` API, `get_callers` on the helper returns the File node (and
`get_callees` on the file returns the helper), although no CALLS edge
exists — the lookups are not restricted to CALLS edges.  Unknown ids do
return `[]`. -/
theorem get_callers_ignores_edge_type :
    add_edge (add_node (add_node CodeGraph.emptyGraph (.str (s2l "app.py"))
          [(s2l "type", .str (s2l "File"))])
        (.str (s2l "app.py::helper")) [(s2l "type", .str (s2l "Function"))])
      (.str (s2l "app.py")) (.str (s2l "app.py::helper"))
      [(s2l "type", .str (s2l "DEFINES"))] = Except.ok c4Graph ∧
    (∀ e ∈ c4Graph.edges, lookupK e.2 (s2l "type") = some (.str (s2l "DEFINES"))) ∧
    get_callers c4Graph (.str (s2l "app.py::helper")) =
      [[(s2l "id", .str (s2l "app.py")), (s2l "type", .str (s2l "File"))]] ∧
    get_callees c4Graph (.str (s2l "app.py")) =
      [[(s2l "id", .str (s2l "app.py::helper")), (s2l "type", .str (s2l "Function"))]] ∧
    get_callers c4Graph (.str (s2l "ghost.py")) = [] ∧
    get_callees c4Graph (.str (s2l "ghost.py")) = [] := by
  refine ⟨by decide, by decide, by decide, by decide, by decide, by decide⟩

theorem containsK_cons (kv : Str × PyValue) (d : Dict) (k : Str) :
    containsK (kv :: d) k = (decide (kv.1 = k) || containsK d k) := rfl

theorem lookupK_none_of_no_key (d : Dict) (k : Str) (h : ∀ kv ∈ d, kv.1 ≠ k) :
    lookupK d k = none := by
  induction d with
  | nil => rfl
  | cons kv rest ih =>
    rcases kv with ⟨a, b⟩
    rw [lookupK_cons_ne _ _ _ _ (h (a, b) (by simp))]
    exact ih (fun x hx => h x (by simp [hx]))

theorem lookupK_map_setVal (d : Dict) (k : Str) (v : PyValue)
    (hc : containsK d k = true) :
    lookupK (d.map (fun kv => if kv.1 = k then (k, v) else kv)) k = some v := by
  induction d with
  | nil => simp [containsK] at hc
  | cons kv rest ih =>
    by_cases hk : kv.1 = k
    · simp only [List.map_cons, if_pos hk]
      exact lookupK_cons_self k v _
    · simp only [List.map_cons, if_neg hk]
      rcases kv with ⟨a, b⟩
      rw [lookupK_cons_ne _ _ _ _ hk]
      apply ih
      rw [containsK_cons] at hc
      simpa [hk] using hc

theorem lookupK_map_setVal_ne (d : Dict) (q k : Str) (v : PyValue) (h : q ≠ k) :
    lookupK (d.map (fun kv => if kv.1 = q then (q, v) else kv)) k = lookupK d k := by
  induction d with
  | nil => rfl
  | cons kv rest ih =>
    rcases kv with ⟨a, b⟩
    by_cases ha : a = q
    · simp only [List.map_cons, if_pos ha]
      rw [lookupK_cons_ne _ _ _ _ h, ha, lookupK_cons_ne _ _ _ _ h, ih]
    · simp only [List.map_cons, if_neg ha]
      by_cases hak : a = k
      · subst hak
        rw [lookupK_cons_self, lookupK_cons_self]
      · rw [lookupK_cons_ne _ _ _ _ hak, lookupK_cons_ne _ _ _ _ hak, ih]

theorem lookupK_append (d d' : Dict) (k : Str) :
    lookupK (d ++ d') k =
      match lookupK d k with
      | some v => some v
      | none => lookupK d' k := by
  induction d with
  | nil => rfl
  | cons kv rest ih =>
    rcases kv with ⟨a, b⟩
    by_cases hak : a = k
    · subst hak
      rw [List.cons_append, lookupK_cons_self, lookupK_cons_self]
    · rw [List.cons_append, lookupK_cons_ne _ _ _ _ hak, lookupK_cons_ne _ _ _ _ hak, ih]

theorem lookupK_setK_self (d : Dict) (k : Str) (v : PyValue) :
    lookupK (setK d k v) k = some v := by
  unfold setK
  cases hc : containsK d k with
  | true =>
    rw [if_pos rfl]
    exact lookupK_map_setVal d k v hc
  | false =>
    rw [if_neg (by simp)]
    rw [lookupK_append]
    rw [lookupK_none_of_no_key d k ((containsK_eq_false_iff d k).1 hc)]
    exact lookupK_cons_self k v []

theorem lookupK_setK_ne (d : Dict) (q k : Str) (v : PyValue) (h : q ≠ k) :
    lookupK (setK d q v) k = lookupK d k := by
  unfold setK
  cases hc : containsK d q with
  | true =>
    rw [if_pos rfl]
    exact lookupK_map_setVal_ne d q k v h
  | false =>
    rw [if_neg (by simp)]
    rw [lookupK_append]
    cases hd : lookupK d k with
    | some w => rfl
    | none =>
      rw [lookupK_cons_ne _ _ _ _ h]
      rfl

theorem updateD_cons (d : Dict) (k : Str) (v : PyValue) (upd : Dict) :
    updateD d ((k, v) :: upd) = updateD (setK d k v) upd := rfl

theorem lookupK_updateD_not_key (d upd : Dict) (k : Str)
    (h : ∀ kv ∈ upd, kv.1 ≠ k) : lookupK (updateD d upd) k = lookupK d k := by
  induction upd generalizing d with
  | nil => rfl
  | cons kv rest ih =>
    rcases kv with ⟨q, v⟩
    rw [updateD_cons, ih _ (fun x hx => h x (by simp [hx])),
      lookupK_setK_ne _ _ _ _ (h (q, v) (by simp))]

theorem lookupK_updateD (d upd : Dict) (k : Str)
    (hnd : (upd.map Prod.fst).Nodup) :
    lookupK (updateD d upd) k =
      match lookupK upd k with
      | some v => some v
      | none => lookupK d k := by
  induction upd generalizing d with
  | nil => rfl
  | cons kv rest ih =>
    rcases kv with ⟨q, v⟩
    rw [List.map_cons, List.nodup_cons] at hnd
    rw [updateD_cons]
    by_cases hqk : q = k
    · subst hqk
      have hq : ∀ x ∈ rest, x.1 ≠ q := by
        intro x hx hcontra
        exact hnd.1 (List.mem_map.mpr ⟨x, hx, hcontra⟩)
      rw [lookupK_updateD_not_key _ _ _ hq, lookupK_setK_self, lookupK_cons_self]
    · rw [ih _ hnd.2, lookupK_cons_ne _ _ _ _ hqk, lookupK_setK_ne _ _ _ _ hqk]

theorem typeAllowed_updateD (base data : Dict)
    (hnd : (data.map Prod.fst).Nodup)
    (hbase : ∀ kv ∈ base, kv.1 ≠ s2l "type") :
    typeAllowed (updateD base data) = typeAllowed data := by
  unfold typeAllowed
  rw [lookupK_updateD base data _ hnd]
  cases h : lookupK data (s2l "type") with
  | some v => rfl
  | none =>
    rw [lookupK_none_of_no_key base _ hbase]

theorem rankBaseKeys_ne_type (i : PyValue) (q : Rat) :
    ∀ kv ∈ [(s2l "id", i), (s2l "rank", PyValue.rat q)], kv.1 ≠ s2l "type" := by
  intro kv hkv
  rcases List.mem_cons.mp hkv with rfl | hkv2
  · exact (by decide : s2l "id" ≠ s2l "type")
  · rcases List.mem_cons.mp hkv2 with rfl | h3
    · exact (by decide : s2l "rank" ≠ s2l "type")
    · simp at h3

theorem insertDesc_mem (d x : Dict) (l : List Dict) :
    x ∈ insertDesc d l ↔ x = d ∨ x ∈ l := by
  induction l with
  | nil => simp [insertDesc]
  | cons y ys ih =>
    rw [insertDesc]
    by_cases hle : rankKey y ≤ rankKey d
    · simp [hle]
    · rw [if_neg hle]
      simp [ih]
      tauto

theorem insertDesc_pairwise (d : Dict) (l : List Dict)
    (h : l.Pairwise (fun a b => rankKey b ≤ rankKey a)) :
    (insertDesc d l).Pairwise (fun a b => rankKey b ≤ rankKey a) := by
  induction l with
  | nil => simp [insertDesc]
  | cons y ys ih =>
    rw [List.pairwise_cons] at h
    obtain ⟨hy, hys⟩ := h
    rw [insertDesc]
    by_cases hle : rankKey y ≤ rankKey d
    · rw [if_pos hle]
      refine List.Pairwise.cons ?_ (List.Pairwise.cons hy hys)
      intro b hb
      rcases List.mem_cons.mp hb with rfl | hbys
      · exact hle
      · exact le_trans (hy b hbys) hle
    · rw [if_neg hle]
      refine List.Pairwise.cons ?_ (ih hys)
      intro b hb
      rcases (insertDesc_mem d b ys).mp hb with rfl | hbys
      · exact le_of_not_le hle
      · exact hy b hbys

theorem sortDesc_pairwise (l : List Dict) :
    (sortDesc l).Pairwise (fun a b => rankKey b ≤ rankKey a) := by
  induction l with
  | nil => simp [sortDesc]
  | cons d ds ih =>
    rw [sortDesc]
    exact insertDesc_pairwise d _ ih

theorem sortDesc_mem (x : Dict) (l : List Dict) : x ∈ sortDesc l ↔ x ∈ l := by
  induction l with
  | nil => simp [sortDesc]
  | cons d ds ih =>
    rw [sortDesc, insertDesc_mem, ih]
    simp

/-- C9: the centrality ranker returns `[]` for a graph with zero nodes
and `[]` when the PageRank computation (invoked with damping factor
0.85) raises; otherwise the output keeps only Class/Method/Function
nodes, is sorted descending by rank score, and has at most `top_n`
entries.  The hypothesis states that node attribute dicts have unique
keys, as every Python dict does. -/
theorem rank_nodes_by_centrality_spec
    (pagerank : Rat → CodeGraph → Except PyErr (List (PyValue × Rat)))
    (g : CodeGraph) (top_n : Nat)
    (hattrs : ∀ nd ∈ g.nodes, ((nd.2).map Prod.fst).Nodup) :
    (g.nodes = [] → rank_nodes_by_centrality pagerank g top_n = []) ∧
    (∀ e, pagerank (85 / 100 : Rat) g = .error e →
      rank_nodes_by_centrality pagerank g top_n = []) ∧
    (rank_nodes_by_centrality pagerank g top_n).length ≤ top_n ∧
    (rank_nodes_by_centrality pagerank g top_n).Pairwise
      (fun a b => rankKey b ≤ rankKey a) ∧
    (∀ d ∈ rank_nodes_by_centrality pagerank g top_n, typeAllowed d = true) := by
  refine ⟨?_, ?_, ?_, ?_, ?_⟩
  · intro h
    simp [rank_nodes_by_centrality, h]
  · intro e he
    by_cases hemp : g.nodes.isEmpty
    · simp [rank_nodes_by_centrality, hemp]
    · simp [rank_nodes_by_centrality, hemp, he]
  · unfold rank_nodes_by_centrality
    by_cases hemp : g.nodes.isEmpty
    · simp [hemp]
    · rw [if_neg (by simp [hemp])]
      cases pagerank (85 / 100 : Rat) g with
      | error e => exact Nat.zero_le _
      | ok scores => exact List.length_take_le _ _
  · unfold rank_nodes_by_centrality
    by_cases hemp : g.nodes.isEmpty
    · simp [hemp]
    · rw [if_neg (by simp [hemp])]
      cases pagerank (85 / 100 : Rat) g with
      | error e => exact List.Pairwise.nil
      | ok scores =>
        exact List.Pairwise.sublist (List.take_sublist _ _) (sortDesc_pairwise _)
  · intro d hd
    unfold rank_nodes_by_centrality at hd
    by_cases hemp : g.nodes.isEmpty
    · simp [hemp] at hd
    · rw [if_neg (by simp [hemp])] at hd
      cases hpr : pagerank (85 / 100 : Rat) g with
      | error e => rw [hpr] at hd; simp at hd
      | ok scores =>
        rw [hpr] at hd
        have hd2 := List.mem_of_mem_take hd
        rw [sortDesc_mem] at hd2
        obtain ⟨nd, hnd, rfl⟩ := List.mem_map.mp hd2
        obtain ⟨hmem, hallow⟩ := List.mem_filter.mp hnd
        rw [typeAllowed_updateD _ _ (hattrs nd hmem)
          (rankBaseKeys_ne_type nd.1 (scoreOf scores nd.1))]
        exact hallow

/-- Witness for C9 at a concrete graph and PageRank oracle. -/
theorem rank_nodes_by_centrality_spec_witness :
    (∀ nd ∈ c9Graph.nodes, ((nd.2).map Prod.fst).Nodup) ∧
    (rank_nodes_by_centrality c9Oracle c9Graph 1).length ≤ 1 ∧
    (∀ d ∈ rank_nodes_by_centrality c9Oracle c9Graph 1, typeAllowed d = true) :=
  ⟨by decide,
   (rank_nodes_by_centrality_spec c9Oracle c9Graph 1 (by decide)).2.2.1,
   (rank_nodes_by_centrality_spec c9Oracle c9Graph 1 (by decide)).2.2.2.2⟩

theorem hasNodeB_iff_mem (g : CodeGraph) (i : PyValue) :
    hasNodeB g i = true ↔ i ∈ nodeIds g := by
  simp [hasNodeB, nodeIds, List.any_eq_true, List.mem_map]

theorem hasNodeB_eq_of_nodeIds {g g' : CodeGraph} (h : nodeIds g = nodeIds g')
    (i : PyValue) : hasNodeB g i = hasNodeB g' i := by
  cases hb : hasNodeB g' i with
  | true =>
    rw [hasNodeB_iff_mem] at hb ⊢
    rw [h]; exact hb
  | false =>
    cases hb2 : hasNodeB g i with
    | false => rfl
    | true =>
      rw [hasNodeB_iff_mem, h, ← hasNodeB_iff_mem] at hb2
      rw [hb2] at hb
      exact hb

theorem nodeIds_add_node (g : CodeGraph) (i : PyValue) (attrs : Dict) :
    nodeIds (add_node g i attrs) =
      if hasNodeB g i then nodeIds g else nodeIds g ++ [i] := by
  unfold add_node nodeIds
  by_cases h : hasNodeB g i = true
  · rw [if_pos h, if_pos h]
    show (g.nodes.map _).map Prod.fst = g.nodes.map Prod.fst
    rw [List.map_map]
    apply List.map_congr_left
    intro nd _
    by_cases hnd : nd.1 = i
    · simp [hnd]
    · simp [hnd]
  · rw [if_neg h, if_neg h]
    simp

theorem add_node_edges (g : CodeGraph) (i : PyValue) (attrs : Dict) :
    (add_node g i attrs).edges = g.edges := by
  unfold add_node
  split <;> rfl

theorem hasNodeB_add_node_mono (g : CodeGraph) (i j : PyValue) (attrs : Dict)
    (h : hasNodeB g j = true) : hasNodeB (add_node g i attrs) j = true := by
  rw [hasNodeB_iff_mem, nodeIds_add_node]
  rw [hasNodeB_iff_mem] at h
  split
  · exact h
  · exact List.mem_append_left _ h

theorem hasNodeB_add_node_self (g : CodeGraph) (i : PyValue) (attrs : Dict) :
    hasNodeB (add_node g i attrs) i = true := by
  rw [hasNodeB_iff_mem, nodeIds_add_node]
  by_cases h : hasNodeB g i = true
  · rw [if_pos h]
    exact (hasNodeB_iff_mem g i).1 h
  · rw [if_neg h]
    exact List.mem_append_right _ (by simp)

theorem popK_eq_some {d : Dict} {k : Str} {v : PyValue} {d1 : Dict}
    (h : popK d k = some (v, d1)) :
    lookupK d k = some v ∧ d1 = eraseK d k := by
  unfold popK at h
  split at h
  · rename_i w hl
    simp only [Option.some.injEq, Prod.mk.injEq] at h
    exact ⟨by rw [hl, h.1], h.2.symm⟩
  · simp at h

theorem add_edge_ok_inv {g : CodeGraph} {u v : PyValue} {attrs : Dict} {g1 : CodeGraph}
    (h : add_edge g u v attrs = .ok g1) :
    hasNodeB g u = true ∧ hasNodeB g v = true ∧ g1.nodes = g.nodes := by
  unfold add_edge at h
  cases hu : hasNodeB g u with
  | false => rw [hu] at h; simp at h
  | true =>
    rw [hu] at h
    cases hv : hasNodeB g v with
    | false => rw [hv] at h; simp at h
    | true =>
      rw [hv] at h
      simp only [Bool.true_eq_false, if_false, Except.ok.injEq] at h
      subst h
      exact ⟨rfl, rfl, (addEdgeRaw_present_props g u v attrs hu hv).2⟩

theorem mergeEdgesLoop_nodes (es : List Dict) :
    ∀ g g1 es1, mergeEdgesLoop g es = .ok (g1, es1) → g1.nodes = g.nodes := by
  induction es with
  | nil =>
    intro g g1 es1 h
    simp only [mergeEdgesLoop, Except.ok.injEq, Prod.mk.injEq] at h
    rw [← h.1]
  | cons d ds ih =>
    intro g g1 es1 h
    rw [mergeEdgesLoop] at h
    split at h
    · simp at h
    · rename_i u d1 hp
      split at h
      · simp at h
      · rename_i v d2 hp2
        split at h
        · simp at h
        · rename_i gx hae
          split at h
          · simp at h
          · rename_i pr gr dsr hrec
            simp only [Except.ok.injEq, Prod.mk.injEq] at h
            rw [← h.1, ih gx gr dsr hrec, (add_edge_ok_inv hae).2.2]

theorem mergeNodesLoop_ok_props (ns : List Dict) :
    ∀ g g1 ns1, mergeNodesLoop g ns = .ok (g1, ns1) →
      (∀ j, hasNodeB g j = true → hasNodeB g1 j = true) ∧
      (∀ d ∈ ns, ∃ w, lookupK d (s2l "id") = some w ∧ hasNodeB g1 w = true) := by
  induction ns with
  | nil =>
    intro g g1 ns1 h
    simp only [mergeNodesLoop, Except.ok.injEq, Prod.mk.injEq] at h
    exact ⟨fun j hj => by rw [← h.1]; exact hj, by simp⟩
  | cons d ds ih =>
    intro g g1 ns1 h
    rw [mergeNodesLoop] at h
    split at h
    · simp at h
    · rename_i i d1 hp
      split at h
      · simp at h
      · rename_i pr gr dsr hrec
        simp only [Except.ok.injEq, Prod.mk.injEq] at h
        obtain ⟨hg, -⟩ := h
        rw [← hg]
        obtain ⟨hmono, hpops⟩ := ih (add_node g i d1) gr dsr hrec
        refine ⟨fun j hj => hmono j (hasNodeB_add_node_mono g i j d1 hj), ?_⟩
        intro x hx
        rcases List.mem_cons.mp hx with rfl | hxs
        · exact ⟨i, (popK_eq_some hp).1, hmono i (hasNodeB_add_node_self g i d1)⟩
        · exact hpops x hxs

theorem mergeNodesLoop_upsert (ns : List Dict) :
    ∀ gB, (∀ d ∈ ns, ∃ w, lookupK d (s2l "id") = some w ∧ hasNodeB gB w = true) →
      ∃ g2, mergeNodesLoop gB ns = .ok (g2, ns.map (fun d => eraseK d (s2l "id"))) ∧
        nodeIds g2 = nodeIds gB := by
  induction ns with
  | nil => exact fun gB _ => ⟨gB, rfl, rfl⟩
  | cons d ds ih =>
    intro gB hpre
    obtain ⟨w, hl, hw⟩ := hpre d (by simp)
    have hpop : popK d (s2l "id") = some (w, eraseK d (s2l "id")) := by
      unfold popK
      rw [hl]
    have hids : nodeIds (add_node gB w (eraseK d (s2l "id"))) = nodeIds gB := by
      rw [nodeIds_add_node, if_pos hw]
    obtain ⟨g2, hrec, hg2⟩ := ih (add_node gB w (eraseK d (s2l "id")))
      (fun x hx => by
        obtain ⟨w1, hl1, hw1⟩ := hpre x (by simp [hx])
        exact ⟨w1, hl1, by rw [hasNodeB_eq_of_nodeIds hids]; exact hw1⟩)
    refine ⟨g2, ?_, by rw [hg2, hids]⟩
    simp only [mergeNodesLoop, hpop, hrec, List.map_cons]

theorem mergeEdgesLoop_restart (es : List Dict) :
    ∀ gA gB g1 es1, mergeEdgesLoop gA es = .ok (g1, es1) → nodeIds gB = nodeIds gA →
      ∃ g3, mergeEdgesLoop gB es = .ok (g3, es1) ∧ nodeIds g3 = nodeIds gB := by
  induction es with
  | nil =>
    intro gA gB g1 es1 h hids
    simp only [mergeEdgesLoop, Except.ok.injEq, Prod.mk.injEq] at h
    exact ⟨gB, by rw [← h.2]; rfl, rfl⟩
  | cons d ds ih =>
    intro gA gB g1 es1 h hids
    rw [mergeEdgesLoop] at h
    split at h
    · simp at h
    · rename_i u d1 hp
      split at h
      · simp at h
      · rename_i v d2 hp2
        split at h
        · simp at h
        · rename_i gx hae
          split at h
          · simp at h
          · rename_i pr gr dsr hrec
            simp only [Except.ok.injEq, Prod.mk.injEq] at h
            obtain ⟨hu, hv, hgx⟩ := add_edge_ok_inv hae
            have hBu : hasNodeB gB u = true := by
              rw [hasNodeB_eq_of_nodeIds hids]; exact hu
            have hBv : hasNodeB gB v = true := by
              rw [hasNodeB_eq_of_nodeIds hids]; exact hv
            have haeB : add_edge gB u v d2 = .ok (addEdgeRaw gB u v d2) := by
              unfold add_edge
              rw [if_neg (by simp [hBu]), if_neg (by simp [hBv])]
            have hBids : nodeIds (addEdgeRaw gB u v d2) = nodeIds gB := by
              unfold nodeIds
              rw [(addEdgeRaw_present_props gB u v d2 hBu hBv).2]
            have hxids : nodeIds (addEdgeRaw gB u v d2) = nodeIds gx := by
              rw [hBids, hids]
              unfold nodeIds
              rw [hgx]
            obtain ⟨g3, hrecB, hg3⟩ := ih gx (addEdgeRaw gB u v d2) gr dsr hrec hxids
            refine ⟨g3, ?_, by rw [hg3, hBids]⟩
            simp only [mergeEdgesLoop, hp, hp2, haeB, hrecB]
            rw [h.2]

theorem containsK_eraseK_self (d : Dict) (k : Str) :
    containsK (eraseK d k) k = false := by
  rw [containsK_eq_false_iff]
  intro kv hkv
  have hmem := List.mem_filter.mp hkv
  simpa using hmem.2

theorem containsK_eraseK_mono (d : Dict) (k q : Str)
    (h : containsK d k = false) : containsK (eraseK d q) k = false := by
  rw [containsK_eq_false_iff] at h ⊢
  intro kv hkv
  exact h kv (List.mem_filter.mp hkv).1

theorem mergeNodesLoop_muts (ns : List Dict) :
    ∀ g g1 ns1, mergeNodesLoop g ns = .ok (g1, ns1) →
      ns1 = ns.map (fun d => eraseK d (s2l "id")) := by
  induction ns with
  | nil =>
    intro g g1 ns1 h
    simp only [mergeNodesLoop, Except.ok.injEq, Prod.mk.injEq] at h
    rw [← h.2, List.map_nil]
  | cons d ds ih =>
    intro g g1 ns1 h
    rw [mergeNodesLoop] at h
    split at h
    · simp at h
    · rename_i i d1 hp
      split at h
      · simp at h
      · rename_i pr gr dsr hrec
        simp only [Except.ok.injEq, Prod.mk.injEq] at h
        rw [← h.2, List.map_cons, (popK_eq_some hp).2,
          ih (add_node g i d1) gr dsr hrec]

theorem mergeEdgesLoop_muts (es : List Dict) :
    ∀ g g1 es1, mergeEdgesLoop g es = .ok (g1, es1) →
      es1 = es.map (fun d => eraseK (eraseK d (s2l "source")) (s2l "target")) := by
  induction es with
  | nil =>
    intro g g1 es1 h
    simp only [mergeEdgesLoop, Except.ok.injEq, Prod.mk.injEq] at h
    rw [← h.2, List.map_nil]
  | cons d ds ih =>
    intro g g1 es1 h
    rw [mergeEdgesLoop] at h
    split at h
    · simp at h
    · rename_i u d1 hp
      split at h
      · simp at h
      · rename_i v d2 hp2
        split at h
        · simp at h
        · rename_i gx hae
          split at h
          · simp at h
          · rename_i pr gr dsr hrec
            simp only [Except.ok.injEq, Prod.mk.injEq] at h
            rw [← h.2, List.map_cons, (popK_eq_some hp2).2, (popK_eq_some hp).2,
              ih gx gr dsr hrec]

/-- C10 amended: a `merge_components` call that completes without
raising pops the `"id"` key out of every dict of the caller's node list
and the `"source"`/`"target"` keys out of every dict of the caller's
edge list — the returned (mutated) lists are exactly the inputs with
those keys deleted, so the batch is no longer usable as-is for a second
merge.  (A call that raises mid-way mutates only the already-processed
prefix, including the dict being processed at the raise; see the
counterexample on `merge_components_run`.) -/
theorem merge_components_mutates (g : CodeGraph) (ns es : List Dict)
    (g1 : CodeGraph) (ns1 es1 : List Dict)
    (h : merge_components g ns es = .ok (g1, ns1, es1)) :
    ns1 = ns.map (fun d => eraseK d (s2l "id")) ∧
    es1 = es.map (fun d => eraseK (eraseK d (s2l "source")) (s2l "target")) ∧
    (∀ d ∈ ns1, containsK d (s2l "id") = false) ∧
    (∀ d ∈ es1, containsK d (s2l "source") = false ∧
      containsK d (s2l "target") = false) := by
  unfold merge_components at h
  split at h
  · simp at h
  · rename_i prA gA nsA hnl
    split at h
    · simp at h
    · rename_i prE gE esE hel
      simp only [Except.ok.injEq, Prod.mk.injEq] at h
      obtain ⟨-, hns, hes⟩ := h
      have h1 : ns1 = ns.map (fun d => eraseK d (s2l "id")) := by
        rw [← hns]; exact mergeNodesLoop_muts ns g gA nsA hnl
      have h2 : es1 = es.map (fun d => eraseK (eraseK d (s2l "source")) (s2l "target")) := by
        rw [← hes]; exact mergeEdgesLoop_muts es gA gE esE hel
      refine ⟨h1, h2, ?_, ?_⟩
      · intro d hd
        rw [h1] at hd
        obtain ⟨d0, -, rfl⟩ := List.mem_map.mp hd
        exact containsK_eraseK_self d0 _
      · intro d hd
        rw [h2] at hd
        obtain ⟨d0, -, rfl⟩ := List.mem_map.mp hd
        exact ⟨containsK_eraseK_mono _ _ _ (containsK_eraseK_self d0 _),
          containsK_eraseK_self _ _⟩

/-- Witness for C10 at a concrete two-node, one-edge pass-1 batch. -/
theorem merge_components_mutates_witness :
    [[(s2l "type", PyValue.str (s2l "File"))],
     [(s2l "type", PyValue.str (s2l "Function"))]] =
      c10NodesIn.map (fun d => eraseK d (s2l "id")) ∧
    [[(s2l "type", PyValue.str (s2l "DEFINES"))]] =
      c10EdgesIn.map (fun d => eraseK (eraseK d (s2l "source")) (s2l "target")) ∧
    (∀ d ∈ [[(s2l "type", PyValue.str (s2l "File"))],
            [(s2l "type", PyValue.str (s2l "Function"))]],
      containsK d (s2l "id") = false) ∧
    (∀ d ∈ [[(s2l "type", PyValue.str (s2l "DEFINES"))]],
      containsK d (s2l "source") = false ∧ containsK d (s2l "target") = false) :=
  merge_components_mutates CodeGraph.emptyGraph c10NodesIn c10EdgesIn c10Graph
    [[(s2l "type", PyValue.str (s2l "File"))],
     [(s2l "type", PyValue.str (s2l "Function"))]]
    [[(s2l "type", PyValue.str (s2l "DEFINES"))]] (by rfl)

/-- C7: if a batch merges successfully, merging a fresh value-equal copy
of the same batch into the result succeeds again (no exception) and
leaves the node count unchanged: the second call upserts the existing
ids instead of duplicating nodes. -/
theorem merge_components_idempotent_nodes (g : CodeGraph) (ns es : List Dict)
    (g1 : CodeGraph) (ns1 es1 : List Dict)
    (h : merge_components g ns es = .ok (g1, ns1, es1)) :
    ∃ g2 ns2 es2, merge_components g1 ns es = .ok (g2, ns2, es2) ∧
      g2.nodes.length = g1.nodes.length := by
  unfold merge_components at h
  split at h
  · simp at h
  · rename_i prA gA nsA hnl
    split at h
    · simp at h
    · rename_i prE gE esE hel
      simp only [Except.ok.injEq, Prod.mk.injEq] at h
      obtain ⟨hg, -, hes⟩ := h
      have hEA : g1.nodes = gA.nodes := by
        rw [← hg]; exact mergeEdgesLoop_nodes es gA gE esE hel
      have hids1A : nodeIds g1 = nodeIds gA := by
        unfold nodeIds; rw [hEA]
      obtain ⟨-, hpops⟩ := mergeNodesLoop_ok_props ns g gA nsA hnl
      obtain ⟨g2n, hrun2, hids2⟩ := mergeNodesLoop_upsert ns g1 (fun d hd => by
        obtain ⟨w, hl, hw⟩ := hpops d hd
        refine ⟨w, hl, ?_⟩
        rw [hasNodeB_eq_of_nodeIds hids1A]
        exact hw)
      have hids2A : nodeIds g2n = nodeIds gA := by rw [hids2, hids1A]
      obtain ⟨g3, hrun3, hids3⟩ := mergeEdgesLoop_restart es gA g2n gE esE hel hids2A
      refine ⟨g3, ns.map (fun d => eraseK d (s2l "id")), esE, ?_, ?_⟩
      · unfold merge_components
        simp only [hrun2, hrun3]
      · have h3 : g3.nodes.length = (nodeIds g3).length := by
          unfold nodeIds; rw [List.length_map]
        have h4 : g1.nodes.length = (nodeIds g1).length := by
          unfold nodeIds; rw [List.length_map]
        rw [h3, h4, hids3, hids2]

/-- Witness for C7: a concrete one-file batch merged into the empty
graph, then merged again into the result. -/
theorem merge_components_idempotent_nodes_witness :
    ∃ g2 ns2 es2, merge_components c7Graph c7NodesIn c7EdgesIn = .ok (g2, ns2, es2) ∧
      g2.nodes.length = c7Graph.nodes.length :=
  merge_components_idempotent_nodes CodeGraph.emptyGraph c7NodesIn c7EdgesIn c7Graph
    [[(s2l "type", PyValue.str (s2l "File"))]]
    [[(s2l "type", PyValue.str (s2l "IMPORTS"))]] (by rfl)

/-- C6 (intended behavior, parser level): a file whose root reports a
syntax error contributes zero nodes and zero edges, and an ingestion run
over any file sequence produces the same graph with or without the
error file — the other files' contributions are untouched and no error
is raised on the error file's account.  (The orchestrator as written in
main.py cannot reach this code: it passes two arguments to the
one-parameter `parse_file_to_graph_components`, a `TypeError`.) -/
theorem parse_error_zero_contribution :
    parse_file_to_graph_components errorFile = ([], []) ∧
    ∀ (g : CodeGraph) (fs1 fs2 : List PyFile),
      ingestFrom g (fs1 ++ errorFile :: fs2) = ingestFrom g (fs1 ++ fs2) := by
  refine ⟨rfl, ?_⟩
  intro g fs1 fs2
  induction fs1 generalizing g with
  | nil => rfl
  | cons f fs ih =>
    show ingestFrom g (f :: (fs ++ errorFile :: fs2)) = ingestFrom g (f :: (fs ++ fs2))
    cases hm : merge_components g (parse_file_to_graph_components f).1
        (parse_file_to_graph_components f).2 with
    | error e => rw [ingestFrom, ingestFrom, hm]
    | ok pr =>
      rcases pr with ⟨g1, a, b⟩
      rw [ingestFrom, ingestFrom, hm]
      exact ih g1

theorem hasEdgeB_iff_mem (g : CodeGraph) (u v : PyValue) :
    hasEdgeB g u v = true ↔ (u, v) ∈ g.edges.map Prod.fst := by
  simp [hasEdgeB, List.any_eq_true, List.mem_map]

theorem containsK_setK (d : Dict) (q k : Str) (v : PyValue)
    (hd : containsK d k = false) (hqk : q ≠ k) :
    containsK (setK d q v) k = false := by
  unfold setK
  split
  · rw [containsK_eq_false_iff] at hd ⊢
    intro kv hkv
    obtain ⟨kv0, hkv0, rfl⟩ := List.mem_map.mp hkv
    by_cases h0 : kv0.1 = q
    · simpa [h0] using hqk
    · simpa [h0] using hd kv0 hkv0
  · rw [containsK_append, hd]
    simp [containsK, hqk]

theorem containsK_updateD (d u : Dict) (k : Str)
    (hd : containsK d k = false) (hu : containsK u k = false) :
    containsK (updateD d u) k = false := by
  induction u generalizing d with
  | nil => exact hd
  | cons kv rest ih =>
    rcases kv with ⟨q, v⟩
    rw [containsK_cons] at hu
    simp only [Bool.or_eq_false_iff, decide_eq_false_iff_not] at hu
    rw [updateD_cons]
    exact ih (setK d q v) (containsK_setK d q k v hd hu.1) hu.2

theorem hasNodeB_eq_of_nodes {g g' : CodeGraph} (h : g.nodes = g'.nodes)
    (i : PyValue) : hasNodeB g i = hasNodeB g' i := by
  unfold hasNodeB
  rw [h]

theorem goodGraph_add_node {g : CodeGraph} (G : GoodGraph g) (i : PyValue)
    (attrs : Dict) (hattrs : containsK attrs (s2l "id") = false) :
    GoodGraph (add_node g i attrs) := by
  refine ⟨?_, ?_, ?_, ?_, ?_⟩
  · show (nodeIds (add_node g i attrs)).Nodup
    rw [nodeIds_add_node]
    by_cases h : hasNodeB g i = true
    · rw [if_pos h]; exact G.nodup_nodes
    · rw [if_neg h]
      refine List.Nodup.append G.nodup_nodes (List.nodup_singleton i) ?_
      intro x hx hxi
      rw [List.mem_singleton] at hxi
      subst hxi
      exact h ((hasNodeB_iff_mem g x).2 hx)
  · rw [add_node_edges]; exact G.nodup_edges
  · intro nd hnd
    unfold add_node at hnd
    split at hnd
    · obtain ⟨nd0, hnd0, rfl⟩ := List.mem_map.mp hnd
      by_cases h0 : nd0.1 = i
      · simp only [if_pos h0]
        exact containsK_updateD _ _ _ (G.nodes_clean nd0 hnd0) hattrs
      · simp only [if_neg h0]
        exact G.nodes_clean nd0 hnd0
    · rcases List.mem_append.mp hnd with hmem | hmem
      · exact G.nodes_clean nd hmem
      · rw [List.mem_singleton] at hmem
        subst hmem
        exact hattrs
  · intro e he
    rw [add_node_edges] at he
    exact G.edges_clean e he
  · intro e he
    rw [add_node_edges] at he
    obtain ⟨h1, h2⟩ := G.endpoints e he
    exact ⟨hasNodeB_add_node_mono g i _ attrs h1, hasNodeB_add_node_mono g i _ attrs h2⟩

theorem add_edge_ok_eq {g : CodeGraph} {u v : PyValue} {attrs : Dict} {g1 : CodeGraph}
    (h : add_edge g u v attrs = .ok g1) :
    g1 = addEdgeRaw g u v attrs ∧ hasNodeB g u = true ∧ hasNodeB g v = true := by
  unfold add_edge at h
  cases hu : hasNodeB g u with
  | false => rw [hu] at h; simp at h
  | true =>
    rw [hu] at h
    cases hv : hasNodeB g v with
    | false => rw [hv] at h; simp at h
    | true =>
      rw [hv] at h
      simp only [Bool.true_eq_false, if_false, Except.ok.injEq] at h
      exact ⟨h.symm, rfl, rfl⟩

theorem goodGraph_add_edge {g g1 : CodeGraph} {u v : PyValue} {attrs : Dict}
    (G : GoodGraph g)
    (hsrc : containsK attrs (s2l "source") = false)
    (htgt : containsK attrs (s2l "target") = false)
    (h : add_edge g u v attrs = .ok g1) : GoodGraph g1 := by
  obtain ⟨rfl, hu, hv⟩ := add_edge_ok_eq h
  rw [addEdgeRaw_of_present g u v attrs hu hv]
  by_cases he : hasEdgeB g u v = true
  · rw [if_pos he]
    refine ⟨G.nodup_nodes, ?_, G.nodes_clean, ?_, ?_⟩
    · show ((g.edges.map _).map Prod.fst).Nodup
      rw [List.map_map]
      have hsame : (g.edges.map (Prod.fst ∘ fun e =>
          if e.1 = (u, v) then ((u, v), updateD e.2 attrs) else e)) =
          g.edges.map Prod.fst := by
        apply List.map_congr_left
        intro e _
        by_cases h0 : e.1 = (u, v)
        · simp [h0]
        · simp [h0]
      rw [hsame]
      exact G.nodup_edges
    · intro e he2
      obtain ⟨e0, he0, rfl⟩ := List.mem_map.mp he2
      by_cases h0 : e0.1 = (u, v)
      · simp only [if_pos h0]
        obtain ⟨hc1, hc2⟩ := G.edges_clean e0 he0
        exact ⟨containsK_updateD _ _ _ hc1 hsrc, containsK_updateD _ _ _ hc2 htgt⟩
      · simp only [if_neg h0]
        exact G.edges_clean e0 he0
    · intro e he2
      obtain ⟨e0, he0, rfl⟩ := List.mem_map.mp he2
      by_cases h0 : e0.1 = (u, v)
      · simp only [if_pos h0]
        exact ⟨hu, hv⟩
      · simp only [if_neg h0]
        exact G.endpoints e0 he0
  · rw [if_neg he]
    refine ⟨G.nodup_nodes, ?_, G.nodes_clean, ?_, ?_⟩
    · show ((g.edges ++ [((u, v), attrs)]).map Prod.fst).Nodup
      rw [List.map_append]
      refine List.Nodup.append G.nodup_edges (by simp) ?_
      intro x hx hxi
      simp only [List.map_cons, List.map_nil, List.mem_singleton] at hxi
      subst hxi
      exact he ((hasEdgeB_iff_mem g u v).2 hx)
    · intro e he2
      rcases List.mem_append.mp he2 with hmem | hmem
      · exact G.edges_clean e hmem
      · rw [List.mem_singleton] at hmem
        subst hmem
        exact ⟨hsrc, htgt⟩
    · intro e he2
      rcases List.mem_append.mp he2 with hmem | hmem
      · exact G.endpoints e hmem
      · rw [List.mem_singleton] at hmem
        subst hmem
        exact ⟨hu, hv⟩

theorem goodGraph_mergeNodesLoop (ns : List Dict) :
    ∀ g g1 ns1, GoodGraph g → mergeNodesLoop g ns = .ok (g1, ns1) →
      GoodGraph g1 := by
  induction ns with
  | nil =>
    intro g g1 ns1 G h
    simp only [mergeNodesLoop, Except.ok.injEq, Prod.mk.injEq] at h
    rw [← h.1]
    exact G
  | cons d ds ih =>
    intro g g1 ns1 G h
    rw [mergeNodesLoop] at h
    split at h
    · simp at h
    · rename_i i d1 hp
      split at h
      · simp at h
      · rename_i pr gr dsr hrec
        simp only [Except.ok.injEq, Prod.mk.injEq] at h
        rw [← h.1]
        refine ih (add_node g i d1) gr dsr ?_ hrec
        have hd1 : d1 = eraseK d (s2l "id") := (popK_eq_some hp).2
        exact goodGraph_add_node G i d1 (hd1 ▸ containsK_eraseK_self d _)

theorem goodGraph_mergeEdgesLoop (es : List Dict) :
    ∀ g g1 es1, GoodGraph g → mergeEdgesLoop g es = .ok (g1, es1) →
      GoodGraph g1 := by
  induction es with
  | nil =>
    intro g g1 es1 G h
    simp only [mergeEdgesLoop, Except.ok.injEq, Prod.mk.injEq] at h
    rw [← h.1]
    exact G
  | cons d ds ih =>
    intro g g1 es1 G h
    rw [mergeEdgesLoop] at h
    split at h
    · simp at h
    · rename_i u d1 hp
      split at h
      · simp at h
      · rename_i v d2 hp2
        split at h
        · simp at h
        · rename_i gx hae
          split at h
          · simp at h
          · rename_i pr gr dsr hrec
            simp only [Except.ok.injEq, Prod.mk.injEq] at h
            rw [← h.1]
            refine ih gx gr dsr ?_ hrec
            have hd1 : d1 = eraseK d (s2l "source") := (popK_eq_some hp).2
            have hd2 : d2 = eraseK d1 (s2l "target") := (popK_eq_some hp2).2
            refine goodGraph_add_edge G ?_ ?_ hae
            · rw [hd2, hd1]
              exact containsK_eraseK_mono _ _ _ (containsK_eraseK_self d _)
            · rw [hd2]
              exact containsK_eraseK_self d1 _

theorem mergeReach_good {g : CodeGraph} (h : MergeReach g) : GoodGraph g := by
  induction h with
  | base =>
    exact ⟨List.nodup_nil, List.nodup_nil, by simp [CodeGraph.emptyGraph],
      by simp [CodeGraph.emptyGraph], by simp [CodeGraph.emptyGraph]⟩
  | step g g1 ns es ns1 es1 _ hmerge ih =>
    unfold merge_components at hmerge
    split at hmerge
    · simp at hmerge
    · rename_i prA gA nsA hnl
      split at hmerge
      · simp at hmerge
      · rename_i prE gE esE hel
        simp only [Except.ok.injEq, Prod.mk.injEq] at hmerge
        rw [← hmerge.1]
        exact goodGraph_mergeEdgesLoop es gA gE esE
          (goodGraph_mergeNodesLoop ns g gA nsA ih hnl) hel

theorem loadNodesLoop_roundtrip (ns : List (PyValue × Dict)) :
    ∀ (acc : List (PyValue × Dict)) (es0 : List ((PyValue × PyValue) × Dict)),
      (∀ nd ∈ ns, containsK nd.2 (s2l "id") = false) →
      ((acc ++ ns).map Prod.fst).Nodup →
      loadNodesLoop ⟨acc, es0⟩ (ns.map (fun nd => updateD nd.2 [(s2l "id", nd.1)])) =
        .ok ⟨acc ++ ns, es0⟩ := by
  induction ns with
  | nil =>
    intro acc es0 _ _
    simp [loadNodesLoop]
  | cons nd rest ih =>
    intro acc es0 hclean hnodup
    rcases nd with ⟨i, d⟩
    have hdclean : containsK d (s2l "id") = false := hclean (i, d) (by simp)
    have hser : updateD d [(s2l "id", i)] = d ++ [(s2l "id", i)] :=
      setK_of_not_contains d _ i hdclean
    have hlook : lookupK (d ++ [(s2l "id", i)]) (s2l "id") = some i := by
      rw [lookupK_append_right d _ _ hdclean]
      exact lookupK_cons_self _ _ _
    have herase : eraseK (d ++ [(s2l "id", i)]) (s2l "id") = d := by
      rw [eraseK_append, eraseK_of_not_contains d _ hdclean]
      have h0 : eraseK [(s2l "id", i)] (s2l "id") = [] := by
        simp [eraseK]
      rw [h0, List.append_nil]
    have hinotin : i ∉ acc.map Prod.fst := by
      rw [List.map_append, List.map_cons] at hnodup
      intro hmem
      exact (List.nodup_append.mp hnodup).2.2 hmem (by simp)
    have hnot : ¬ (hasNodeB (⟨acc, es0⟩ : CodeGraph) i = true) :=
      fun hc => hinotin ((hasNodeB_iff_mem _ i).1 hc)
    have hadd : add_node ⟨acc, es0⟩ i d = ⟨acc ++ [(i, d)], es0⟩ := by
      unfold add_node
      rw [if_neg hnot]
    have hnodup2 : (((acc ++ [(i, d)]) ++ rest).map Prod.fst).Nodup := by
      rw [List.append_assoc]
      exact hnodup
    simp only [List.map_cons, loadNodesLoop, hser, hlook, herase, hadd]
    rw [ih (acc ++ [(i, d)]) es0 (fun x hx => hclean x (by simp [hx])) hnodup2,
      List.append_assoc]
    rfl

theorem loadLinksLoop_roundtrip (es : List ((PyValue × PyValue) × Dict)) :
    ∀ (N : List (PyValue × Dict)) (acc : List ((PyValue × PyValue) × Dict)),
      (∀ e ∈ es, containsK e.2 (s2l "source") = false ∧
        containsK e.2 (s2l "target") = false) →
      ((acc ++ es).map Prod.fst).Nodup →
      (∀ e ∈ es, e.1.1 ∈ N.map Prod.fst ∧ e.1.2 ∈ N.map Prod.fst) →
      loadLinksLoop ⟨N, acc⟩
        (es.map (fun e => updateD e.2 [(s2l "source", e.1.1), (s2l "target", e.1.2)])) =
        .ok ⟨N, acc ++ es⟩ := by
  induction es with
  | nil =>
    intro N acc _ _ _
    simp [loadLinksLoop]
  | cons e rest ih =>
    intro N acc hclean hnodup hend
    rcases e with ⟨⟨u, v⟩, d⟩
    obtain ⟨hcs, hct⟩ := hclean ((u, v), d) (by simp)
    have hst : ¬ (s2l "source" = s2l "target") := by decide
    have hts : ¬ (s2l "target" = s2l "source") := by decide
    have hcst : containsK (d ++ [(s2l "source", u)]) (s2l "target") = false := by
      rw [containsK_append, hct]
      have h0 : containsK [(s2l "source", u)] (s2l "target") = false := by
        simp [containsK, hst]
      rw [h0]
      rfl
    have hser : updateD d [(s2l "source", u), (s2l "target", v)] =
        d ++ [(s2l "source", u), (s2l "target", v)] := by
      show setK (setK d (s2l "source") u) (s2l "target") v = _
      rw [setK_of_not_contains d _ u hcs, setK_of_not_contains _ _ v hcst,
        List.append_assoc]
      rfl
    have hlooks : lookupK (d ++ [(s2l "source", u), (s2l "target", v)])
        (s2l "source") = some u := by
      rw [lookupK_append_right d _ _ hcs]
      exact lookupK_cons_self _ _ _
    have hlookt : lookupK (d ++ [(s2l "source", u), (s2l "target", v)])
        (s2l "target") = some v := by
      rw [lookupK_append_right d _ _ hct,
        lookupK_cons_ne _ _ _ _ hst]
      exact lookupK_cons_self _ _ _
    have herase : eraseK (eraseK (d ++ [(s2l "source", u), (s2l "target", v)])
        (s2l "source")) (s2l "target") = d := by
      rw [eraseK_append, eraseK_of_not_contains d _ hcs]
      have h1 : eraseK [(s2l "source", u), (s2l "target", v)] (s2l "source") =
          [(s2l "target", v)] := by
        simp [eraseK, hts]
      rw [h1, eraseK_append, eraseK_of_not_contains d _ hct]
      have h2 : eraseK [(s2l "target", v)] (s2l "target") = [] := by
        simp [eraseK]
      rw [h2, List.append_nil]
    have hNu : hasNodeB (⟨N, acc⟩ : CodeGraph) u = true :=
      (hasNodeB_iff_mem _ u).2 (hend ((u, v), d) (by simp)).1
    have hNv : hasNodeB (⟨N, acc⟩ : CodeGraph) v = true :=
      (hasNodeB_iff_mem _ v).2 (hend ((u, v), d) (by simp)).2
    have hEnot : ¬ (hasEdgeB (⟨N, acc⟩ : CodeGraph) u v = true) := by
      intro hc
      have hmem := (hasEdgeB_iff_mem _ u v).1 hc
      rw [List.map_append, List.map_cons] at hnodup
      exact (List.nodup_append.mp hnodup).2.2 hmem (by simp)
    have hadd : addEdgeRaw ⟨N, acc⟩ u v d = ⟨N, acc ++ [((u, v), d)]⟩ := by
      rw [addEdgeRaw_of_present _ _ _ _ hNu hNv, if_neg hEnot]
    have hnodup2 : (((acc ++ [((u, v), d)]) ++ rest).map Prod.fst).Nodup := by
      rw [List.append_assoc]
      exact hnodup
    simp only [List.map_cons, loadLinksLoop, hser, hlooks, hlookt, herase, hadd]
    rw [ih N (acc ++ [((u, v), d)]) (fun x hx => hclean x (by simp [hx])) hnodup2
      (fun x hx => hend x (by simp [hx])), List.append_assoc]
    rfl

theorem load_serialize_roundtrip {g : CodeGraph} (G : GoodGraph g) :
    load_from_json (serialize_to_json g) = .ok g := by
  have h1 := loadNodesLoop_roundtrip g.nodes [] []
    G.nodes_clean (by simpa using G.nodup_nodes)
  have h2 := loadLinksLoop_roundtrip g.edges g.nodes []
    G.edges_clean (by simpa using G.nodup_edges)
    (fun e he =>
      ⟨(hasNodeB_iff_mem g e.1.1).1 (G.endpoints e he).1,
       (hasNodeB_iff_mem g e.1.2).1 (G.endpoints e he).2⟩)
  rw [List.nil_append] at h1 h2
  unfold load_from_json serialize_to_json
  rw [show CodeGraph.emptyGraph = ({ nodes := [], edges := [] } : CodeGraph) from rfl, h1]
  exact h2

/-- C5: for every graph built through `merge_components` from the empty
graph, deserializing the node-link serialization reproduces the graph
EXACTLY — in particular node and edge counts and every node and edge
attribute map (rank scores included, were any stored) are identical. -/
theorem serialize_roundtrip_lossless (g : CodeGraph) (h : MergeReach g) :
    load_from_json (serialize_to_json g) = .ok g :=
  load_serialize_roundtrip (mergeReach_good h)

/-- Witness for C5 on a concrete merge-built two-node one-edge graph. -/
theorem serialize_roundtrip_lossless_witness :
    load_from_json (serialize_to_json c5Graph) = .ok c5Graph :=
  serialize_roundtrip_lossless c5Graph
    (MergeReach.step CodeGraph.emptyGraph c5Graph c5NodesIn c5EdgesIn
      [[(s2l "type", PyValue.str (s2l "File"))],
       [(s2l "type", PyValue.str (s2l "Function"))]]
      [[(s2l "type", PyValue.str (s2l "DEFINES"))]]
      MergeReach.base (by rfl))

theorem colonsEq : s2l "::" = [':', ':'] := rfl

theorem colon_split (a : Str) : ∀ (b m m' : Str), ':' ∉ a → ':' ∉ b →
    a ++ ':' :: ':' :: m = b ++ ':' :: ':' :: m' → a = b ∧ m = m' := by
  induction a with
  | nil =>
    intro b m m' _ hb h
    cases b with
    | nil =>
      simp only [List.nil_append, List.cons.injEq] at h
      exact ⟨rfl, h.2.2⟩
    | cons y ys =>
      simp only [List.nil_append, List.cons_append, List.cons.injEq] at h
      exact absurd (h.1 ▸ List.mem_cons_self y ys) hb
  | cons x xs ih =>
    intro b m m' ha hb h
    cases b with
    | nil =>
      simp only [List.nil_append, List.cons_append, List.cons.injEq] at h
      exact absurd (h.1.symm ▸ List.mem_cons_self x xs) ha
    | cons y ys =>
      simp only [List.cons_append, List.cons.injEq] at h
      have hxs : ':' ∉ xs := fun hc => ha (List.mem_cons_of_mem x hc)
      have hys : ':' ∉ ys := fun hc => hb (List.mem_cons_of_mem y hc)
      obtain ⟨h1, h2⟩ := ih ys m m' hxs hys h.2
      exact ⟨by rw [h.1, h1], h2⟩

theorem cuid_single_inj {p a b : Str}
    (h : create_unique_id p [a] = create_unique_id p [b]) : a = b := by
  unfold create_unique_id joinColons at h
  exact List.append_cancel_left h

theorem cuid_single_ne_pair (p a b m : Str) (ha : ':' ∉ a) :
    create_unique_id p [a] ≠ create_unique_id p [b, m] := by
  intro h
  unfold create_unique_id joinColons at h
  have h2 : a = b ++ s2l "::" ++ joinColons [m] := List.append_cancel_left h
  apply ha
  rw [h2, colonsEq, List.append_assoc]
  exact List.mem_append_right b (by simp)

theorem cuid_pair_inj {p a b m m' : Str} (ha : ':' ∉ a) (hb : ':' ∉ b)
    (h : create_unique_id p [a, m] = create_unique_id p [b, m']) :
    a = b ∧ m = m' := by
  unfold create_unique_id joinColons at h
  have h2 : a ++ s2l "::" ++ joinColons [m] = b ++ s2l "::" ++ joinColons [m'] :=
    List.append_cancel_left h
  rw [colonsEq] at h2
  rw [List.append_assoc, List.append_assoc] at h2
  exact colon_split a b (joinColons [m]) (joinColons [m']) ha hb h2

theorem cuid_pair_inj_cls {p c m m' : Str}
    (h : create_unique_id p [c, m] = create_unique_id p [c, m']) : m = m' := by
  unfold create_unique_id joinColons at h
  exact List.append_cancel_left (List.append_cancel_left h)

theorem file_ne_cuid (p : Str) (parts : List Str) :
    p ≠ create_unique_id p parts := by
  intro h
  have hl := congrArg List.length h
  rw [create_unique_id, colonsEq] at hl
  simp [List.length_append] at hl

theorem pairwise_imp_mem {α : Type} {R S : α → α → Prop} :
    ∀ {l : List α}, (∀ a ∈ l, ∀ b ∈ l, R a b → S a b) → l.Pairwise R →
      l.Pairwise S := by
  intro l
  induction l with
  | nil => intro _ _; exact List.Pairwise.nil
  | cons x xs ih =>
    intro h hp
    rw [List.pairwise_cons] at hp ⊢
    exact ⟨fun b hb => h x (by simp) b (by simp [hb]) (hp.1 b hb),
      ih (fun a ha b hb => h a (by simp [ha]) b (by simp [hb])) hp.2⟩

theorem idOf_fileDict (f : PyFile) :
    lookupK (fileDict f) (s2l "id") = some (.str f.path) :=
  lookupK_cons_self _ _ _

theorem idOf_classNodeDict (path : Str) (c : DefInfo) :
    lookupK (classNodeDict path c) (s2l "id") =
      some (.str (create_unique_id path [c.name])) :=
  lookupK_cons_self _ _ _

theorem idOf_methodNodeDict (path cname : Str) (m : DefInfo) :
    lookupK (methodNodeDict path cname m) (s2l "id") =
      some (.str (create_unique_id path [cname, m.name])) :=
  lookupK_cons_self _ _ _

theorem idOf_funcNodeDict (path : Str) (fn : DefInfo) :
    lookupK (funcNodeDict path fn) (s2l "id") =
      some (.str (create_unique_id path [fn.name])) :=
  lookupK_cons_self _ _ _

theorem idOf_importNodeDict (iid nm : Str) :
    lookupK (importNodeDict iid nm) (s2l "id") = some (.str iid) :=
  lookupK_cons_self _ _ _

theorem batchIds_classSection (path : Str) (dfs : List PyDef) :
    batchIds (classSectionNodes path dfs) =
      (allClasses dfs).flatMap (fun c =>
        some (PyValue.str (create_unique_id path [c.name])) ::
          (allFuncs c.body).map (fun m =>
            some (PyValue.str (create_unique_id path [c.name, m.name])))) := by
  unfold batchIds classSectionNodes
  rw [List.map_flatMap]
  simp only [List.map_cons, List.map_map, Function.comp_def, idOf_classNodeDict,
    idOf_methodNodeDict]

theorem batchIds_funcSection (path : Str) (dfs : List PyDef) :
    batchIds (funcSectionNodes path dfs) =
      (freeFuncs dfs).map (fun fn =>
        some (PyValue.str (create_unique_id path [fn.name]))) := by
  unfold batchIds funcSectionNodes
  rw [List.map_map]
  simp only [Function.comp_def, idOf_funcNodeDict]

theorem importLoop_nodup (file_id : Str) (imps : List Str) :
    ∀ cur eds, (batchIds cur).Nodup →
      (batchIds (importLoop file_id cur eds imps).1).Nodup := by
  induction imps with
  | nil => intro cur eds h; exact h
  | cons nm rest ih =>
    intro cur eds h
    rw [importLoop]
    by_cases hc : cur.any (fun d =>
        decide (lookupK d (s2l "id") = some (.str (s2l "import::" ++ nm)))) = true
    · rw [if_pos hc]
      exact ih cur _ h
    · rw [if_neg hc]
      apply ih
      show (batchIds (cur ++ [importNodeDict (s2l "import::" ++ nm) nm])).Nodup
      rw [batchIds, List.map_append]
      refine List.Nodup.append h (by simp) ?_
      intro x hx hxm
      simp only [List.map_cons, List.map_nil, idOf_importNodeDict,
        List.mem_singleton] at hxm
      subst hxm
      apply hc
      rw [List.any_eq_true]
      obtain ⟨d0, hd0, hlk⟩ := List.mem_map.mp hx
      exact ⟨d0, hd0, by rw [hlk]; simp⟩

/-- C8 counterexample: a zero-syntax-error file with two same-named
top-level functions (legal Python — the second redefines the first)
yields a batch whose node list carries the id `m.py::f` twice. -/
theorem parse_file_duplicate_ids_cex :
    ¬ (batchIds (parse_file_to_graph_components dupFile).1).Nodup := by
  have hval : (parse_file_to_graph_components dupFile).1 =
      [fileDict dupFile,
       funcNodeDict (s2l "m.py") ⟨s2l "f", 0, 0, []⟩,
       funcNodeDict (s2l "m.py") ⟨s2l "f", 1, 1, []⟩] := by
    simp [parse_file_to_graph_components, dupFile, importLoop, classSectionNodes,
      funcSectionNodes, allClasses, freeFuncs]
  rw [hval]
  decide

/-- C8 amended: for a file with zero syntax errors, every node id
emitted for that file is unique within the file's own batch PROVIDED no
two definitions synthesize the same id: class names pairwise distinct,
top-level function names pairwise distinct, no class named like a
top-level function, and within each class subtree no two same-named
function definitions (Python permits such same-named redefinitions, and
they produce duplicate ids).  Import nodes are deduplicated against the
whole batch unconditionally.  Colon-freeness of the names holds for all
Python identifiers. -/
theorem parse_file_node_ids_unique (f : PyFile)
    (herr : f.hasError = false)
    (hcls : ((allClasses f.defs).map DefInfo.name).Nodup)
    (hmeth : ∀ c ∈ allClasses f.defs, ((allFuncs c.body).map DefInfo.name).Nodup)
    (hfun : ((freeFuncs f.defs).map DefInfo.name).Nodup)
    (hcf : ∀ c ∈ allClasses f.defs, ∀ fd ∈ freeFuncs f.defs, c.name ≠ fd.name)
    (hccol : ∀ c ∈ allClasses f.defs, ':' ∉ c.name)
    (hfcol : ∀ fd ∈ freeFuncs f.defs, ':' ∉ fd.name) :
    (batchIds (parse_file_to_graph_components f).1).Nodup := by
  unfold parse_file_to_graph_components
  rw [if_neg (by simp [herr])]
  apply importLoop_nodup
  show (batchIds (fileDict f ::
    (classSectionNodes f.path f.defs ++ funcSectionNodes f.path f.defs))).Nodup
  rw [show batchIds (fileDict f ::
      (classSectionNodes f.path f.defs ++ funcSectionNodes f.path f.defs)) =
      lookupK (fileDict f) (s2l "id") ::
        (batchIds (classSectionNodes f.path f.defs) ++
          batchIds (funcSectionNodes f.path f.defs)) from by
    simp [batchIds]]
  rw [batchIds_classSection, batchIds_funcSection, idOf_fileDict, List.nodup_cons]
  constructor
  · intro hmem
    rcases List.mem_append.mp hmem with hA | hB
    · obtain ⟨c, hc, hx⟩ := List.mem_flatMap.mp hA
      rcases List.mem_cons.mp hx with heq | hxm
      · simp only [Option.some.injEq, PyValue.str.injEq] at heq
        exact file_ne_cuid f.path [c.name] heq
      · obtain ⟨m, hm, heq⟩ := List.mem_map.mp hxm
        simp only [Option.some.injEq, PyValue.str.injEq] at heq
        exact file_ne_cuid f.path [c.name, m.name] heq.symm
    · obtain ⟨fd, hfd, heq⟩ := List.mem_map.mp hB
      simp only [Option.some.injEq, PyValue.str.injEq] at heq
      exact file_ne_cuid f.path [fd.name] heq.symm
  · rw [List.nodup_append]
    refine ⟨?_, ?_, ?_⟩
    · rw [List.nodup_flatMap]
      constructor
      · intro c hc
        rw [List.nodup_cons]
        constructor
        · intro hmem
          obtain ⟨m, hm, heq⟩ := List.mem_map.mp hmem
          simp only [Option.some.injEq, PyValue.str.injEq] at heq
          exact cuid_single_ne_pair f.path c.name c.name m.name (hccol c hc) heq.symm
        · have hinj : Function.Injective
              (fun nm => some (PyValue.str (create_unique_id f.path [c.name, nm]))) := by
            intro x y hxy
            simp only [Option.some.injEq, PyValue.str.injEq] at hxy
            exact cuid_pair_inj_cls hxy
          have hnd := List.Nodup.map hinj (hmeth c hc)
          rw [List.map_map] at hnd
          exact hnd
      · have hcls2 : ((allClasses f.defs).map DefInfo.name).Pairwise
            (fun a b => a ≠ b) := hcls
        have hp : (allClasses f.defs).Pairwise (fun a b => a.name ≠ b.name) :=
          List.pairwise_map.mp hcls2
        refine pairwise_imp_mem ?_ hp
        intro a ha b hb hab x hxa hxb
        rcases List.mem_cons.mp hxa with rfl | hma
        · rcases List.mem_cons.mp hxb with heq | hmb
          · simp only [Option.some.injEq, PyValue.str.injEq] at heq
            exact hab (cuid_single_inj heq)
          · obtain ⟨m, hm, heq⟩ := List.mem_map.mp hmb
            simp only [Option.some.injEq, PyValue.str.injEq] at heq
            exact cuid_single_ne_pair f.path a.name b.name m.name (hccol a ha) heq.symm
        · obtain ⟨m, hm, heq⟩ := List.mem_map.mp hma
          rcases List.mem_cons.mp hxb with heq2 | hmb
          · rw [heq2] at heq
            simp only [Option.some.injEq, PyValue.str.injEq] at heq
            exact cuid_single_ne_pair f.path b.name a.name m.name (hccol b hb) heq.symm
          · obtain ⟨m', hm', heq'⟩ := List.mem_map.mp hmb
            rw [← heq'] at heq
            simp only [Option.some.injEq, PyValue.str.injEq] at heq
            exact hab (cuid_pair_inj (hccol a ha) (hccol b hb) heq).1
    · have hinj : Function.Injective
          (fun nm => some (PyValue.str (create_unique_id f.path [nm]))) := by
        intro x y hxy
        simp only [Option.some.injEq, PyValue.str.injEq] at hxy
        exact cuid_single_inj hxy
      have hnd := List.Nodup.map hinj hfun
      rw [List.map_map] at hnd
      exact hnd
    · intro x hxA hxB
      obtain ⟨fd, hfd, heqB⟩ := List.mem_map.mp hxB
      obtain ⟨c, hc, hx⟩ := List.mem_flatMap.mp hxA
      rcases List.mem_cons.mp hx with heq | hxm
      · rw [heq] at heqB
        simp only [Option.some.injEq, PyValue.str.injEq] at heqB
        exact hcf c hc fd hfd (cuid_single_inj heqB).symm
      · obtain ⟨m, hm, heqm⟩ := List.mem_map.mp hxm
        rw [← heqB] at heqm
        simp only [Option.some.injEq, PyValue.str.injEq] at heqm
        exact cuid_single_ne_pair f.path fd.name c.name m.name (hfcol fd hfd) heqm.symm

/-- Witness for C8 on a concrete unambiguous file: one class with one
method, one top-level function, one import. -/
theorem parse_file_node_ids_unique_witness :
    okFile.hasError = false ∧
    (batchIds (parse_file_to_graph_components okFile).1).Nodup := by
  have hA : allClasses okFile.defs =
      [⟨s2l "A", 0, 5, [.funcDef (s2l "m") 1 2 []]⟩] := by
    simp [okFile, allClasses]
  have hF : freeFuncs okFile.defs = [⟨s2l "g", 6, 7, []⟩] := by
    simp [okFile, freeFuncs]
  have hAF : allFuncs [PyDef.funcDef (s2l "m") 1 2 []] = [⟨s2l "m", 1, 2, []⟩] := by
    simp [allFuncs]
  refine ⟨rfl, parse_file_node_ids_unique okFile rfl ?_ ?_ ?_ ?_ ?_ ?_⟩
  · rw [hA]; decide
  · rw [hA]
    intro c hc
    rw [List.mem_singleton] at hc
    subst hc
    rw [show (⟨s2l "A", 0, 5, [.funcDef (s2l "m") 1 2 []]⟩ : DefInfo).body =
      [PyDef.funcDef (s2l "m") 1 2 []] from rfl, hAF]
    decide
  · rw [hF]; decide
  · rw [hA, hF]
    intro c hc fd hfd
    rw [List.mem_singleton] at hc hfd
    subst hc
    subst hfd
    decide
  · rw [hA]
    intro c hc
    rw [List.mem_singleton] at hc
    subst hc
    decide
  · rw [hF]
    intro fd hfd
    rw [List.mem_singleton] at hfd
    subst hfd
    decide

theorem mergeNodesRun_of_ok (ns : List Dict) :
    ∀ g g1 ns1, mergeNodesLoop g ns = .ok (g1, ns1) →
      mergeNodesRun g ns = (.ok g1, ns1) := by
  induction ns with
  | nil =>
    intro g g1 ns1 h
    simp only [mergeNodesLoop, Except.ok.injEq, Prod.mk.injEq] at h
    rw [mergeNodesRun, ← h.1, ← h.2]
  | cons d ds ih =>
    intro g g1 ns1 h
    rw [mergeNodesLoop] at h
    split at h
    · simp at h
    · rename_i i d1 hp
      split at h
      · simp at h
      · rename_i pr gr dsr hrec
        simp only [Except.ok.injEq, Prod.mk.injEq] at h
        simp only [mergeNodesRun, hp, ih (add_node g i d1) gr dsr hrec]
        rw [← h.1, ← h.2]

theorem mergeEdgesRun_of_ok (es : List Dict) :
    ∀ g g1 es1, mergeEdgesLoop g es = .ok (g1, es1) →
      mergeEdgesRun g es = (.ok g1, es1) := by
  induction es with
  | nil =>
    intro g g1 es1 h
    simp only [mergeEdgesLoop, Except.ok.injEq, Prod.mk.injEq] at h
    rw [mergeEdgesRun, ← h.1, ← h.2]
  | cons d ds ih =>
    intro g g1 es1 h
    rw [mergeEdgesLoop] at h
    split at h
    · simp at h
    · rename_i u d1 hp
      split at h
      · simp at h
      · rename_i v d2 hp2
        split at h
        · simp at h
        · rename_i gx hae
          split at h
          · simp at h
          · rename_i pr gr dsr hrec
            simp only [Except.ok.injEq, Prod.mk.injEq] at h
            simp only [mergeEdgesRun, hp, hp2, hae, ih gx gr dsr hrec]
            rw [← h.1, ← h.2]

theorem merge_components_run_of_ok (g : CodeGraph) (ns es : List Dict)
    (g1 : CodeGraph) (ns1 es1 : List Dict)
    (h : merge_components g ns es = .ok (g1, ns1, es1)) :
    merge_components_run g ns es = (.ok g1, ns1, es1) := by
  unfold merge_components at h
  split at h
  · simp at h
  · rename_i prA gA nsA hnl
    split at h
    · simp at h
    · rename_i prE gE esE hel
      simp only [Except.ok.injEq, Prod.mk.injEq] at h
      unfold merge_components_run
      rw [mergeNodesRun_of_ok ns g gA nsA hnl]
      simp only [mergeEdgesRun_of_ok es gA gE esE hel]
      rw [← h.1, ← h.2.1, ← h.2.2]

/-- C10 counterexample: the claim as stated — after ANY call every node
dict has lost `"id"` and every edge dict has lost `"source"`/`"target"`
— fails when `add_edge` raises mid-edge-loop.  Merging this batch into
the empty graph raises a missing-target `ValueError` on the first edge:
the node dict and the first edge dict are popped, but the second edge
dict still carries its `"source"` and `"target"` keys after the call. -/
theorem merge_components_partial_mutation_cex :
    merge_components_run CodeGraph.emptyGraph c10CexNodes c10CexEdges =
      (.error .valueErrorTarget,
       [[(s2l "type", PyValue.str (s2l "File"))]],
       [[(s2l "type", PyValue.str (s2l "CALLS"))],
        [(s2l "source", PyValue.str (s2l "z.py")),
         (s2l "target", PyValue.str (s2l "z.py::other")),
         (s2l "type", PyValue.str (s2l "CALLS"))]]) ∧
    ¬ (∀ d ∈ (merge_components_run CodeGraph.emptyGraph c10CexNodes c10CexEdges).2.2,
        containsK d (s2l "source") = false ∧ containsK d (s2l "target") = false) := by
  refine ⟨by rfl, by decide⟩
